import Mathlib

/-!
Verification of the SEO article production app (`src/App.tsx`).

The development shallowly embeds the client-side HTML post-processing
pipeline and the batch orchestration logic of the app:

* the internal-link inserter `insertInternalLinksIntoSections`,
* the readability transform `improveReadability`,
* website detection `extractWebsiteFromBriefHTML`,
* context extraction `extractContextFromData`,
* the per-account batch article loop (`autoGenerateOutline` /
  `autoStartWriting` / `autoPublish` / `autoContinue`), and
* the tracker update loop `updateClickUpTasksAutomatic`.

Strings are modelled as `List Char`; the JavaScript string and regex
operations used by the source (`String.prototype.replace`, `split(/\s+/)`,
`match(/<p>[\s\S]*?<\/p>/g)`, ...) are implemented as structurally recursive
scanners with the same left-to-right, leftmost-match semantics, so that
every operation evaluates by kernel reduction on concrete inputs.
-/

set_option maxRecDepth 100000

namespace Geo

/-! ## Character classes (mirroring JavaScript regex classes) -/

/-- JavaScript `\s` (ASCII part: space, tab, LF, VT, FF, CR). -/
def isWS (c : Char) : Bool :=
  c == ' ' || c == '\t' || c == '\n' || c == '\x0b' || c == '\x0c' || c == '\r'

/-- Line terminators that JavaScript `.` does not match. -/
def isNL (c : Char) : Bool :=
  c == '\n' || c == '\r' || c == ' ' || c == ' '

/-- JavaScript `\w` word characters `[A-Za-z0-9_]`. -/
def isWordCh (c : Char) : Bool :=
  ('a' ≤ c && c ≤ 'z') || ('A' ≤ c && c ≤ 'Z') || ('0' ≤ c && c ≤ '9') || c == '_'

/-- ASCII uppercase `[A-Z]`. -/
def isUpper (c : Char) : Bool := 'A' ≤ c && c ≤ 'Z'

/-- Lowercase ASCII letter. -/
def isLowerAlpha (c : Char) : Bool := 'a' ≤ c && c ≤ 'z'

/-- Case folding used by the `i` regex flag: ASCII letters plus the accented
letters appearing in the source's patterns. -/
def lowerCh (c : Char) : Char :=
  if 'A' ≤ c && c ≤ 'Z' then Char.ofNat (c.toNat + 32)
  else if c == 'Á' then 'á'
  else if c == 'É' then 'é'
  else if c == 'Í' then 'í'
  else if c == 'Ó' then 'ó'
  else if c == 'Ú' then 'ú'
  else if c == 'Ñ' then 'ñ'
  else if c == 'Ü' then 'ü'
  else c

/-! ## Substring search and first-occurrence replacement -/

/-- Boolean list-prefix test (`BEq`-style, on characters). -/
def isPrefixL : List Char → List Char → Bool
  | [], _ => true
  | _ :: _, [] => false
  | p :: ps, c :: cs => p == c && isPrefixL ps cs

/-- Case-insensitive prefix test (JS `i` flag). -/
def ciPrefix : List Char → List Char → Bool
  | [], _ => true
  | _ :: _, [] => false
  | p :: ps, c :: cs => (lowerCh p == lowerCh c) && ciPrefix ps cs

/-- Split a list at the first (leftmost) occurrence of `pat`, returning the
part before the occurrence and the part after it.  This is the semantics of
JavaScript `indexOf` / non-global `replace`. -/
def splitFirst? (pat : List Char) : List Char → Option (List Char × List Char)
  | [] => if isPrefixL pat [] then some ([], []) else none
  | c :: cs =>
    if isPrefixL pat (c :: cs) then some ([], (c :: cs).drop pat.length)
    else (splitFirst? pat cs).map (fun q => (c :: q.1, q.2))

/-- Case-insensitive version of `splitFirst?`. -/
def ciSplitFirst? (pat : List Char) : List Char → Option (List Char × List Char)
  | [] => if ciPrefix pat [] then some ([], []) else none
  | c :: cs =>
    if ciPrefix pat (c :: cs) then some ([], (c :: cs).drop pat.length)
    else (ciSplitFirst? pat cs).map (fun q => (c :: q.1, q.2))

/-- Does `pat` occur in `s` (JS `includes`). -/
def containsSub (pat s : List Char) : Bool := (splitFirst? pat s).isSome

/-- JS `String.prototype.replace` with a plain-string pattern: replace the
first occurrence only (the replacement is spliced verbatim; the source never
uses `$`-patterns in its replacement strings). -/
def replaceFirstSub (s pat repl : List Char) : List Char :=
  match splitFirst? pat s with
  | none => s
  | some (b, a) => b ++ repl ++ a

/-! ## Trimming and whitespace splitting -/

/-- JS `String.prototype.trim` (over the ASCII whitespace set). -/
def trimJS (s : List Char) : List Char :=
  ((s.dropWhile isWS).reverse.dropWhile isWS).reverse

/-- Worker for `splitRuns`, accumulating the current word reversed. -/
def srAux : List Char → List Char → List (List Char)
  | cur, [] => if cur.isEmpty then [] else [cur.reverse]
  | cur, c :: cs =>
    if isWS c then
      if cur.isEmpty then srAux [] cs else cur.reverse :: srAux [] cs
    else srAux (c :: cur) cs

/-- Split on runs of whitespace, dropping empty pieces.  Composed with
`trimJS` this models the source's idiom
`text.trim().split(/\s+/).filter(w => w.length > 0)`. -/
def splitRuns (s : List Char) : List (List Char) := srAux [] s

/-- Naive word list of a text fragment: trim, split on whitespace, keep
non-empty tokens (the `filter(w => w.length > 0)` in the source). -/
def naiveWords (t : List Char) : List (List Char) := splitRuns (trimJS t)

/-- Intercalate a separator between pieces (JS `Array.prototype.join`). -/
def interc (sep : List Char) : List (List Char) → List Char
  | [] => []
  | [w] => w
  | w :: x :: ws => w ++ sep ++ interc sep (x :: ws)

/-- `join(' ')`. -/
def joinSp (ws : List (List Char)) : List Char := interc [' '] ws

/-! ## HTML fragment scanners

Each scanner is a character-by-character state machine: `none` means
"outside a candidate match", `some buf` means "inside a candidate, having
collected `buf` (reversed)"; a `Nat` state component swallows characters
that belong to an already-recognized delimiter. -/

/-- The literal `<p>`. -/
def openP : List Char := ['<', 'p', '>']

/-- The literal `</p>`. -/
def closeP : List Char := ['<', '/', 'p', '>']

/-- Worker for `scanParas`. -/
def spAux : Option (List Char) → Nat → List Char → List (List Char)
  | _, _ + 1, [] => []
  | st, n + 1, _ :: cs => spAux st n cs
  | none, 0, [] => []
  | none, 0, c :: cs =>
    if isPrefixL openP (c :: cs) then spAux (some []) 2 cs else spAux none 0 cs
  | some _, 0, [] => []
  | some buf, 0, c :: cs =>
    if isPrefixL closeP (c :: cs) then (openP ++ buf.reverse ++ closeP) :: spAux none 3 cs
    else spAux (some (c :: buf)) 0 cs

/-- All matches of the global regex `/<p>[\s\S]*?<\/p>/g`: repeatedly take
the leftmost `<p>`, then lazily the first `</p>` after it. -/
def scanParas (s : List Char) : List (List Char) := spAux none 0 s

/-- Worker for `replaceParasNoNL`.  A candidate whose body reaches a line
terminator cannot match (JS `.`); no other candidate can start inside the
already-collected body (it would have failed at the same terminator), so the
candidate's text is emitted verbatim and scanning resumes outside. -/
def rpAux (cb : List Char → List Char) : Option (List Char) → Nat → List Char → List Char
  | _, _ + 1, [] => []
  | st, n + 1, _ :: cs => rpAux cb st n cs
  | none, 0, [] => []
  | none, 0, c :: cs =>
    if isPrefixL openP (c :: cs) then rpAux cb (some []) 2 cs
    else c :: rpAux cb none 0 cs
  | some buf, 0, [] => openP ++ buf.reverse
  | some buf, 0, c :: cs =>
    if isPrefixL closeP (c :: cs) then cb buf.reverse ++ rpAux cb none 3 cs
    else if isNL c then openP ++ buf.reverse ++ c :: rpAux cb none 0 cs
    else rpAux cb (some (c :: buf)) 0 cs

/-- JS `replace(/<p>(.*?)<\/p>/g, cb)` where `cb` receives the captured body
and produces the full replacement text for the match. -/
def replaceParasNoNL (cb : List Char → List Char) (s : List Char) : List Char :=
  rpAux cb none 0 s

/-- Worker for `scanParaBodies`. -/
def sbAux : Option (List Char) → Nat → List Char → List (List Char)
  | _, _ + 1, [] => []
  | st, n + 1, _ :: cs => sbAux st n cs
  | none, 0, [] => []
  | none, 0, c :: cs =>
    if isPrefixL openP (c :: cs) then sbAux (some []) 2 cs else sbAux none 0 cs
  | some _, 0, [] => []
  | some buf, 0, c :: cs =>
    if isPrefixL closeP (c :: cs) then buf.reverse :: sbAux none 3 cs
    else if isNL c then sbAux none 0 cs
    else sbAux (some (c :: buf)) 0 cs

/-- The capture bodies of `/<p>(.*?)<\/p>/g`, in order. -/
def scanParaBodies (s : List Char) : List (List Char) := sbAux none 0 s

/-- Worker for `stripTags` (JS `replace(/<[^>]+>/g, '')`): on `<`, start a
candidate; on `>` with a non-empty body the whole group is dropped, with an
empty body (`<>`) there is no match and the two characters are emitted; a
candidate left unclosed at the end of input is emitted verbatim. -/
def stAux : Option (List Char) → List Char → List Char
  | none, [] => []
  | none, c :: cs => if c = '<' then stAux (some []) cs else c :: stAux none cs
  | some buf, [] => '<' :: buf.reverse
  | some buf, c :: cs =>
    if c = '>' then
      if buf.isEmpty then '<' :: '>' :: stAux none cs else stAux none cs
    else stAux (some (c :: buf)) cs

/-- JS `replace(/<[^>]+>/g, '')`. -/
def stripTags (s : List Char) : List Char := stAux none s

/-- Worker for `extractTags`: the same matcher as `stripTags`, collecting the
complete `<...>` groups instead of dropping them. -/
def etAux : Option (List Char) → List Char → List (List Char)
  | _, [] => []
  | none, c :: cs => if c = '<' then etAux (some []) cs else etAux none cs
  | some buf, c :: cs =>
    if c = '>' then
      if buf.isEmpty then etAux none cs
      else ('<' :: buf.reverse ++ ['>']) :: etAux none cs
    else etAux (some (c :: buf)) cs

/-- All complete `<...>` tags appearing in a fragment, in order. -/
def extractTags (s : List Char) : List (List Char) := etAux none s

/-- JS `replace(/<\/?p>/g, '')` (used by pass 4 of the link inserter). -/
def stripPTags : List Char → List Char
  | [] => []
  | '<' :: '/' :: 'p' :: '>' :: rest => stripPTags rest
  | '<' :: 'p' :: '>' :: rest => stripPTags rest
  | c :: cs => c :: stripPTags cs

/-- One match attempt of `/<a\s+href=/` at the head of the list; on success
returns the remainder after the match. -/
def matchAHrefAt : List Char → Option (List Char)
  | '<' :: 'a' :: rest =>
    if (rest.takeWhile isWS).isEmpty then none
    else
      let r := rest.dropWhile isWS
      if isPrefixL ['h', 'r', 'e', 'f', '='] r then some (r.drop 5) else none
  | _ => none

/-- Number of matches of the global regex `/<a\s+href=/g` (the strict anchor
count used by `startWriting`'s verification step).  A match contains no
second `<`, so matches never overlap and counting match positions equals the
non-overlapping global count. -/
def countAHref : List Char → Nat
  | [] => 0
  | c :: cs => (if (matchAHrefAt (c :: cs)).isSome then 1 else 0) + countAHref cs

/-- The `href` values of anchors, in document order: at each occurrence of
`<a href="`, the text up to the next `"` (a measuring device for the
statements; occurrences cannot overlap). -/
def extractHrefs : List Char → List (List Char)
  | [] => []
  | c :: cs =>
    (if isPrefixL "<a href=\"".data (c :: cs) then
      [((c :: cs).drop 9).takeWhile (fun x => x ≠ '"')]
     else []) ++ extractHrefs cs

/-! ## Global replacement engines (JS `replace(/pat/gi, repl)` and friends) -/

/-- Worker for `replaceAllCI`: global case-insensitive literal replacement,
left-to-right, non-overlapping; the `Nat` state swallows the remaining
characters of a recognized match. -/
def racAux (p : Char) (ps repl : List Char) : Nat → List Char → List Char
  | _ + 1, [] => []
  | n + 1, _ :: cs => racAux p ps repl n cs
  | 0, [] => []
  | 0, c :: cs =>
    if ciPrefix (p :: ps) (c :: cs) then repl ++ racAux p ps repl ps.length cs
    else c :: racAux p ps repl 0 cs

/-- JS `str.replace(new RegExp(lit, 'gi'), repl)` for a literal pattern
without metacharacters (the connector table of `improveReadability`). -/
def replaceAllCI (pat repl s : List Char) : List Char :=
  match pat with
  | [] => s
  | p :: ps => racAux p ps repl 0 s

/-- Worker for `occursCI`. -/
def occursCIAux (p : Char) (ps : List Char) : List Char → Bool
  | [] => false
  | c :: cs => ciPrefix (p :: ps) (c :: cs) || occursCIAux p ps cs

/-- Does the literal pattern occur (case-insensitively) anywhere? -/
def occursCI (pat s : List Char) : Bool :=
  match pat with
  | [] => true
  | p :: ps => occursCIAux p ps s

theorem racAux_of_not_occurs {p : Char} {ps repl s : List Char}
    (h : occursCIAux p ps s = false) : racAux p ps repl 0 s = s := by
  induction s with
  | nil => rfl
  | cons c cs ih =>
    simp only [occursCIAux, Bool.or_eq_false_iff] at h
    rw [racAux, if_neg (by simp [h.1])]
    rw [ih h.2]

theorem replaceAllCI_of_not_occurs {pat repl s : List Char}
    (h : occursCI pat s = false) : replaceAllCI pat repl s = s := by
  cases pat with
  | nil => rfl
  | cons p ps => exact racAux_of_not_occurs h

/-- Is the character after the candidate match (skipping `n` pattern-tail
characters) a non-word character or the end of the string (the trailing
`\b`)? -/
def noWordAfter (n : Nat) (cs : List Char) : Bool :=
  match cs.drop n with
  | [] => true
  | d :: _ => !isWordCh d

/-- Worker for `replaceAllWB`: global case-insensitive whole-word replacement
(`new RegExp("\\b" + lit + "\\b", 'gi')`) for patterns that start and end
with word characters, carrying the wordness of the previously scanned
character for the leading `\b`. -/
def rawAux (p : Char) (ps repl : List Char) : Nat → Bool → List Char → List Char
  | _ + 1, _, [] => []
  | n + 1, _, c :: cs => rawAux p ps repl n (isWordCh c) cs
  | 0, _, [] => []
  | 0, prevW, c :: cs =>
    if !prevW && ciPrefix (p :: ps) (c :: cs) && noWordAfter ps.length cs then
      repl ++ rawAux p ps repl ps.length (isWordCh c) cs
    else c :: rawAux p ps repl 0 (isWordCh c) cs

/-- Whole-word global replacement (the vocabulary table of
`improveReadability`). -/
def replaceAllWB (pat repl s : List Char) : List Char :=
  match pat with
  | [] => s
  | p :: ps => rawAux p ps repl 0 false s

/-- Worker for `occursWB`. -/
def occursWBAux (p : Char) (ps : List Char) : Bool → List Char → Bool
  | _, [] => false
  | prevW, c :: cs =>
    (!prevW && ciPrefix (p :: ps) (c :: cs) && noWordAfter ps.length cs) ||
      occursWBAux p ps (isWordCh c) cs

/-- Does the whole-word pattern occur anywhere? -/
def occursWB (pat s : List Char) : Bool :=
  match pat with
  | [] => true
  | p :: ps => occursWBAux p ps false s

theorem rawAux_of_not_occurs {p : Char} {ps repl s : List Char} {w : Bool}
    (h : occursWBAux p ps w s = false) : rawAux p ps repl 0 w s = s := by
  induction s generalizing w with
  | nil => rfl
  | cons c cs ih =>
    simp only [occursWBAux, Bool.or_eq_false_iff] at h
    rw [rawAux, if_neg (by simp [h.1])]
    rw [ih h.2]

theorem replaceAllWB_of_not_occurs {pat repl s : List Char}
    (h : occursWB pat s = false) : replaceAllWB pat repl s = s := by
  cases pat with
  | nil => rfl
  | cons p ps => exact rawAux_of_not_occurs h

/-! ## Whitespace and punctuation cleanup (steps 5 and 6 of the transform) -/

/-- Worker for `collapseWS` (JS `replace(/\s{2,}/g, ' ')`); the Boolean state
records that the current whitespace run has already been emitted as a single
space. -/
def cwAux : Bool → List Char → List Char
  | _, [] => []
  | true, c :: cs => if isWS c then cwAux true cs else c :: cwAux false cs
  | false, c :: cs =>
    if isWS c then
      match cs with
      | d :: _ => if isWS d then ' ' :: cwAux true cs else c :: cwAux false cs
      | [] => [c]
    else c :: cwAux false cs

/-- JS `replace(/\s{2,}/g, ' ')`. -/
def collapseWS (s : List Char) : List Char := cwAux false s

/-- No two adjacent whitespace characters. -/
def noDoubleWS : List Char → Bool
  | [] => true
  | [_] => true
  | c :: d :: cs => !(isWS c && isWS d) && noDoubleWS (d :: cs)

theorem cwAux_of_noDoubleWS {s : List Char} (h : noDoubleWS s = true) :
    cwAux false s = s := by
  induction s with
  | nil => rfl
  | cons c cs ih =>
    cases cs with
    | nil =>
      by_cases hc : isWS c = true <;> simp [cwAux, hc]
    | cons d ds =>
      simp only [noDoubleWS, Bool.and_eq_true] at h
      by_cases hc : isWS c = true
      · have hd : isWS d = false := by
          rcases (by simpa using h.1 : isWS c = false ∨ isWS d = false) with h1 | h1
          · rw [h1] at hc; exact absurd hc (by simp)
          · exact h1
        rw [cwAux, if_pos hc]
        simp only [hd, Bool.false_eq_true, if_false]
        rw [ih h.2]
      · rw [cwAux, if_neg hc]
        rw [ih h.2]

/-- Worker for `collapseDots` (JS `replace(/\.{2,}/g, '.')`). -/
def cdAux : Bool → List Char → List Char
  | _, [] => []
  | true, c :: cs => if c = '.' then cdAux true cs else c :: cdAux false cs
  | false, c :: cs =>
    if c = '.' then
      match cs with
      | d :: _ => if d = '.' then '.' :: cdAux true cs else c :: cdAux false cs
      | [] => [c]
    else c :: cdAux false cs

/-- JS `replace(/\.{2,}/g, '.')`. -/
def collapseDots (s : List Char) : List Char := cdAux false s

/-- No two adjacent periods. -/
def noDoubleDot : List Char → Bool
  | [] => true
  | [_] => true
  | c :: d :: cs => !(c = '.' && d = '.') && noDoubleDot (d :: cs)

theorem cdAux_of_noDoubleDot {s : List Char} (h : noDoubleDot s = true) :
    cdAux false s = s := by
  induction s with
  | nil => rfl
  | cons c cs ih =>
    cases cs with
    | nil =>
      by_cases hc : c = '.' <;> simp [cdAux, hc]
    | cons d ds =>
      simp only [noDoubleDot, Bool.and_eq_true] at h
      by_cases hc : c = '.'
      · have hd : ¬d = '.' := by
          rcases (by simpa using h.1 : ¬c = '.' ∨ ¬d = '.') with h1 | h1
          · exact absurd hc h1
          · exact h1
        rw [cdAux, if_pos hc]
        simp only [hd, decide_eq_false hd, if_false]
        rw [ih h.2]
      · rw [cdAux, if_neg hc]
        rw [ih h.2]

/-- Worker for `dotSpDot` (JS `replace(/\.\s*\./g, '.')`); the Boolean state
swallows the whitespace and closing period of a recognized match. -/
def dsdAux : Bool → List Char → List Char
  | _, [] => []
  | true, c :: cs => if c = '.' then dsdAux false cs else dsdAux true cs
  | false, c :: cs =>
    if c = '.' then
      if (cs.dropWhile isWS).head? = some '.' then '.' :: dsdAux true cs
      else c :: dsdAux false cs
    else c :: dsdAux false cs

/-- JS `replace(/\.\s*\./g, '.')`. -/
def dotSpDot (s : List Char) : List Char := dsdAux false s

/-- No period-whitespace-period pattern. -/
def noDotSpDot : List Char → Bool
  | [] => true
  | c :: cs =>
    !(decide (c = '.') && decide ((cs.dropWhile isWS).head? = some '.')) && noDotSpDot cs

theorem dsdAux_of_noDotSpDot {s : List Char} (h : noDotSpDot s = true) :
    dsdAux false s = s := by
  induction s with
  | nil => rfl
  | cons c cs ih =>
    simp only [noDotSpDot, Bool.and_eq_true] at h
    by_cases hc : c = '.'
    · have hd : ¬(cs.dropWhile isWS).head? = some '.' := by
        rcases (by simpa using h.1 : ¬c = '.' ∨ ¬(cs.dropWhile isWS).head? = some '.') with
          h1 | h1
        · exact absurd hc h1
        · exact h1
      rw [dsdAux, if_pos hc, if_neg hd, ih h.2]
    · rw [dsdAux, if_neg hc, ih h.2]

/-- JS `replace(/\.([A-Z])/g, '. $1')` (scanning continues after the matched
uppercase letter). -/
def dotUpper : List Char → List Char
  | [] => []
  | [c] => [c]
  | c :: d :: cs =>
    if c = '.' && isUpper d then c :: ' ' :: d :: dotUpper cs
    else c :: dotUpper (d :: cs)

/-- No period immediately followed by an ASCII uppercase letter. -/
def noDotUpper : List Char → Bool
  | [] => true
  | [_] => true
  | c :: d :: cs => !(c = '.' && isUpper d) && noDotUpper (d :: cs)

theorem dotUpper_of_noDotUpper {s : List Char} (h : noDotUpper s = true) :
    dotUpper s = s := by
  induction s with
  | nil => rfl
  | cons c cs ih =>
    cases cs with
    | nil => rfl
    | cons d ds =>
      simp only [noDotUpper, Bool.and_eq_true] at h
      have hcond : (decide (c = '.') && isUpper d) = false := by
        rcases (by simpa using h.1 : ¬c = '.' ∨ isUpper d = false) with h1 | h1 <;> simp [h1]
      rw [dotUpper]
      simp only [hcond, Bool.false_eq_true, if_false]
      rw [ih h.2]

/-! ## The readability transform (`improveReadability`, App.tsx 279-371) -/

/-- Worker for `splitDotWS` (JS `split(/\.\s+/)`); the Boolean state swallows
the whitespace run of a recognized separator. -/
def sdwAux : Bool → List Char → List (List Char)
  | _, [] => [[]]
  | true, c :: cs =>
    if isWS c then sdwAux true cs
    else if decide (c = '.') && (match cs with | d :: _ => isWS d | [] => false) then
      [] :: sdwAux true cs
    else (sdwAux false cs).modifyHead (fun w => c :: w)
  | false, c :: cs =>
    if decide (c = '.') && (match cs with | d :: _ => isWS d | [] => false) then
      [] :: sdwAux true cs
    else (sdwAux false cs).modifyHead (fun w => c :: w)

/-- JS `text.split(/\.\s+/)`: split on a period followed by at least one
whitespace character (both removed), keeping empty pieces. -/
def splitDotWS (s : List Char) : List (List Char) := sdwAux false s

/-- Step 1 per-sentence action: a sentence of more than 20 naive words is
split at its midpoint into two sentences rejoined with `". "`.
(`sentence.trim().split(/\s+/)` yields `[""]` on a blank sentence, length 1;
`naiveWords` yields `[]`, length 0 — both fail the `> 20` test, so the
branch taken is identical.) -/
def step1Sentence (sentence : List Char) : List Char :=
  let words := naiveWords sentence
  if 20 < words.length then
    joinSp (words.take (words.length / 2)) ++ '.' :: ' ' :: joinSp (words.drop (words.length / 2))
  else sentence

/-- Step 1 paragraph callback: split into naive sentences, process each, and
rejoin with `". "`, trimming the result. -/
def step1Cb (text : List Char) : List Char :=
  openP ++ trimJS (interc ['.', ' '] ((splitDotWS text).map step1Sentence)) ++ closeP

/-- Step 2 paragraph callback: a paragraph of more than 4 non-blank naive
sentences is split into two paragraphs at the ceiling of half the count,
each re-punctuated with a trailing period. -/
def step2Cb (text : List Char) : List Char :=
  let sentences := (splitDotWS text).filter (fun x => !(trimJS x).isEmpty)
  if 4 < sentences.length then
    let m := (sentences.length + 1) / 2
    (openP ++ (interc ['.', ' '] (sentences.take m) ++ ['.']) ++ closeP) ++
      (openP ++ (interc ['.', ' '] (sentences.drop m) ++ ['.']) ++ closeP)
  else openP ++ text ++ closeP

/-- The fixed connector-simplification table (step 3), in source order. -/
def connectorRules : List (String × String) :=
  [(", que ", ". "), (", donde ", ". "), (", mediante ", ". "),
   (", para que ", ". Para "), (", lo que ", ". Esto "), (", el cual ", ". Este "),
   (", la cual ", ". Esta "), (", los cuales ", ". Estos "), (", las cuales ", ". Estas "),
   ("debido a que", "porque"), ("a pesar de que", "aunque"), ("con el fin de", "para"),
   ("en el caso de que", "si"), ("de tal manera que", "así")]

/-- The fixed vocabulary-simplification table (step 4), in source order. -/
def vocabRules : List (String × String) :=
  [("utilizar", "usar"), ("efectuar", "hacer"), ("realizar", "hacer"),
   ("implementar", "aplicar"), ("optimizar", "mejorar"), ("incrementar", "aumentar"),
   ("disminuir", "bajar"), ("adicionalmente", "además"), ("posteriormente", "después"),
   ("anteriormente", "antes"), ("aproximadamente", "cerca de"), ("específicamente", "en concreto")]

/-- The readability transform (`improveReadability`): sentence splitting,
paragraph splitting, connector simplification, vocabulary simplification,
whitespace/punctuation cleanup, space after periods. -/
def improveReadability (html : String) : String :=
  if html = "" then html
  else
    let s1 := replaceParasNoNL step1Cb html.data
    let s2 := replaceParasNoNL step2Cb s1
    let s3 := connectorRules.foldl (fun acc pr => replaceAllCI pr.1.data pr.2.data acc) s2
    let s4 := vocabRules.foldl (fun acc pr => replaceAllWB pr.1.data pr.2.data acc) s3
    let s5 := dotSpDot (collapseDots (collapseWS s4))
    ⟨dotUpper s5⟩

/-! ## The internal-link inserter (`insertInternalLinksIntoSections`,
App.tsx 105-275) -/

/-- A section of the article under construction (`types.ts`; the `keywords`
field plays no role in the embedded operations and is omitted). -/
structure Sec where
  id : String
  title : String
  content : String
deriving Repr, DecidableEq

/-- The opening tag of an inserted anchor. -/
def anchorOpenTag (link : List Char) : List Char :=
  "<a href=\"".data ++ link ++ "\" target=\"_blank\" rel=\"noopener noreferrer\">".data

/-- A full inserted anchor element. -/
def anchorHtml (link anchorText : List Char) : List Char :=
  anchorOpenTag link ++ anchorText ++ "</a>".data

/-- Rebuild a paragraph from its plain-text words with an anchor spliced over
`words.slice(aStart, aEnd)` (passes 1-3): flanking text that is empty after
trimming is omitted. -/
def splice (words : List (List Char)) (aStart aEnd : Nat) (link : List Char) : List Char :=
  let anchorText := joinSp ((words.take aEnd).drop aStart)
  let before := joinSp (words.take aStart)
  let after := joinSp (words.drop aEnd)
  let parts := [before, anchorHtml link anchorText, after].filter (fun pt => !(trimJS pt).isEmpty)
  openP ++ joinSp parts ++ closeP

/-- First paragraph whose tag-stripped word count reaches the threshold. -/
def firstQualifying (thresh : Nat) : List (List Char) → Option (List Char)
  | [] => none
  | p :: ps =>
    if thresh ≤ (naiveWords (stripTags p)).length then some p else firstQualifying thresh ps

/-- Pass 1 (per section): long paragraphs (≥ 15 words), anchor of up to 7
words starting at `mid - 3` (`Math.max(0, mid - 3)` is truncated
subtraction). -/
def pass1Body (links : List (List Char)) (count : Nat) (sec : Sec) : Sec × Nat :=
  if 3 ≤ count ∨ sec.content = "" then (sec, count)
  else
    let paras := scanParas sec.content.data
    if paras.isEmpty then (sec, count)
    else
      match firstQualifying 15 paras with
      | none => (sec, count)
      | some p =>
        let words := naiveWords (stripTags p)
        let aStart := words.length / 2 - 3
        let aLen := min 7 (words.length - aStart)
        let newP := splice words aStart (aStart + aLen) (links.getD count [])
        ({ sec with content := ⟨replaceFirstSub sec.content.data p newP⟩ }, count + 1)

/-- Pass 2 (per section): skip sections already holding `<a href=`; medium
paragraphs (≥ 10 words), anchor of up to 5 words from `mid - 2`. -/
def pass2Body (links : List (List Char)) (count : Nat) (sec : Sec) : Sec × Nat :=
  if 3 ≤ count ∨ sec.content = "" then (sec, count)
  else if containsSub "<a href=".data sec.content.data then (sec, count)
  else
    match firstQualifying 10 (scanParas sec.content.data) with
    | none => (sec, count)
    | some p =>
      let words := naiveWords (stripTags p)
      let aStart := words.length / 2 - 2
      let aLen := min 5 (words.length - aStart)
      let newP := splice words aStart (aStart + aLen) (links.getD count [])
      ({ sec with content := ⟨replaceFirstSub sec.content.data p newP⟩ }, count + 1)

/-- Pass 3 (per section): short paragraphs (≥ 6 words), anchor of up to 4
words from `mid - 1`. -/
def pass3Body (links : List (List Char)) (count : Nat) (sec : Sec) : Sec × Nat :=
  if 3 ≤ count ∨ sec.content = "" then (sec, count)
  else if containsSub "<a href=".data sec.content.data then (sec, count)
  else
    match firstQualifying 6 (scanParas sec.content.data) with
    | none => (sec, count)
    | some p =>
      let words := naiveWords (stripTags p)
      let aStart := words.length / 2 - 1
      let aEnd := min words.length (aStart + 4)
      let newP := splice words aStart aEnd (links.getD count [])
      ({ sec with content := ⟨replaceFirstSub sec.content.data p newP⟩ }, count + 1)

/-- The three fixed call-to-action anchor phrases of pass 4. -/
def pass4Phrases : List String :=
  ["conoce más sobre nuestros servicios",
   "encuentra información útil en nuestro blog",
   "agenda una consulta personalizada"]

/-- Pass 4 (per section, "desperate mode"): append a fixed call-to-action
phrase with the link to the first paragraph that does not already contain an
anchor, regardless of its length. -/
def pass4Body (links : List (List Char)) (count : Nat) (sec : Sec) : Sec × Nat :=
  if 3 ≤ count ∨ sec.content = "" then (sec, count)
  else
    match (scanParas sec.content.data).find? (fun p => !containsSub "<a href=".data p) with
    | none => (sec, count)
    | some p =>
      let textOnly := trimJS (stripPTags p)
      let anchorText := (pass4Phrases.getD count "").data
      let newP := openP ++ textOnly ++ ". Puedes ".data ++
        anchorHtml (links.getD count []) anchorText ++ closeP
      ({ sec with content := ⟨replaceFirstSub sec.content.data p newP⟩ }, count + 1)

/-- Thread the shared insertion counter through a pass over the sections in
order (the mutable `insertedCount` of the source). -/
def mapCount (body : Nat → Sec → Sec × Nat) : List Sec → Nat → List Sec × Nat
  | [], c => ([], c)
  | s :: rest, c =>
    let q := body c s
    let r := mapCount body rest q.2
    (q.1 :: r.1, r.2)

/-- The four-pass internal-link inserter.  Returns the updated sections
together with the final value of the shared insertion counter (the source
returns the sections and logs the counter).  With fewer than 3 links it
returns the input unchanged. -/
def insertInternalLinksIntoSections (sections : List Sec) (links : List String) :
    List Sec × Nat :=
  if links.length < 3 then (sections, 0)
  else
    let ls := (links.take 3).map String.data
    let r1 := mapCount (pass1Body ls) sections 0
    let r2 := if r1.2 < 3 then mapCount (pass2Body ls) r1.1 r1.2 else r1
    let r3 := if r2.2 < 3 then mapCount (pass3Body ls) r2.1 r2.2 else r2
    if r3.2 < 3 then mapCount (pass4Body ls) r3.1 r3.2 else r3

/-! ## The link phase of article assembly (`startWriting`, App.tsx 1054-1105) -/

/-- `generateClientInternalLinks`: strip one trailing slash, then home, blog
and contact routes. -/
def generateClientInternalLinks (domain : String) : List String :=
  let base : List Char :=
    if domain.data.getLast? = some '/' then domain.data.dropLast else domain.data
  [⟨base ++ "/".data⟩, ⟨base ++ "/blog".data⟩, ⟨base ++ "/contacto".data⟩]

/-- Total number of `/<a\s+href=/g` matches across all section contents (the
strict verification loop of `startWriting`). -/
def countAnchorsTotal (secs : List Sec) : Nat :=
  (secs.map (fun s => countAHref s.content.data)).sum

/-- The error message of the hard publish block. -/
def linkBlockMsg : String :=
  "BLOQUEO CRÍTICO: se insertaron menos de 3 enlaces. Se requieren 3 enlaces internos obligatorios cuando el cliente tiene web."

/-- The linking phase of `startWriting`: with a client website, derive the 3
canonical links, run the inserter and fail hard when fewer than 3 anchors
result; without a website, skip linking entirely. -/
def startWritingLinkPhase (sections : List Sec) (website : Option String) :
    Except String (List Sec) :=
  match website with
  | none => Except.ok sections
  | some w =>
    let finalSections := (insertInternalLinksIntoSections sections (generateClientInternalLinks w)).1
    if countAnchorsTotal finalSections < 3 then Except.error linkBlockMsg
    else Except.ok finalSections

/-! ## Website detection (`extractWebsiteFromBriefHTML`, App.tsx 65-89) -/

/-- The fixed label locating the website question block. -/
def briefLabel : List Char := "¿Tienes página web?".data

/-- The capture of `/¿Tienes página web\?[\s\S]*?<p>([\s\S]*?)<\/p>/i`: the
body of the first `<p>...</p>` after the first occurrence of the label. -/
def findLabelPara (s : List Char) : Option (List Char) :=
  match ciSplitFirst? briefLabel s with
  | none => none
  | some (_, rest) =>
    match splitFirst? openP rest with
    | none => none
    | some (_, rest2) =>
      match splitFirst? closeP rest2 with
      | none => none
      | some (mid, _) => some mid

/-- Worker for `stripImgTags`: on a case-insensitive `<img`, drop everything
to the next `>` (lazy `[\s\S]*?`); an unclosed candidate is emitted
verbatim. -/
def siAux : Option (List Char) → List Char → List Char
  | none, [] => []
  | none, c :: cs =>
    if ciPrefix "<img".data (c :: cs) then siAux (some []) cs else c :: siAux none cs
  | some buf, [] => '<' :: buf.reverse
  | some buf, c :: cs => if c = '>' then siAux none cs else siAux (some (c :: buf)) cs

/-- JS `replace(/<img[\s\S]*?>/gi, "")`. -/
def stripImgTags (s : List Char) : List Char := siAux none s

/-- The character class `[a-z0-9-]` under the `i` flag. -/
def isLabelCh (c : Char) : Bool :=
  isLowerAlpha (lowerCh c) || ('0' ≤ c && c ≤ '9') || c == '-'

/-- The TLD alternatives of the domain pattern, in source order. -/
def domainTLDs : List String :=
  ["com", "es", "net", "org", "clinic", "health", "med", "co"]

/-- Match one TLD alternative at the head of `rem`, requiring a trailing word
boundary; returns the consumed characters. -/
def tryTLD (rem : List Char) : Option (List Char) :=
  domainTLDs.findSome? fun tld =>
    if ciPrefix tld.data rem then
      match rem.drop tld.data.length with
      | [] => some (rem.take tld.data.length)
      | d :: _ => if isWordCh d then none else some (rem.take tld.data.length)
    else none

/-- Fueled worker for `labelReps`. -/
def labelRepsF : Nat → List Char → List (List Char × List Char)
  | 0, _ => []
  | f + 1, r =>
    let l := r.takeWhile isLabelCh
    if l.isEmpty then []
    else
      match r.dropWhile isLabelCh with
      | '.' :: r2 => (l ++ ['.'], r2) :: (labelRepsF f r2).map (fun q => (l ++ ['.'] ++ q.1, q.2))
      | _ => []

/-- All ways of reading `([a-z0-9-]+\.)+` from the head of `r`: the list of
(consumed, remainder) pairs for 1, 2, ... repetitions, in increasing order
(each repetition consumes at least two characters, so `r.length` is enough
fuel). -/
def labelReps (r : List Char) : List (List Char × List Char) := labelRepsF r.length r

/-- Try the whole domain pattern `((https?:\/\/)?([a-z0-9-]+\.)+(com|...))\b`
anchored at the head of `s`, with the regex's greedy backtracking (most label
repetitions first, scheme included when present). -/
def tryDomainAt (s : List Char) : Option (List Char) :=
  let core : List Char → List Char → Option (List Char) := fun sch r =>
    (labelReps r).reverse.findSome? fun q => (tryTLD q.2).map (fun t => sch ++ q.1 ++ t)
  if ciPrefix "https://".data s then
    (core (s.take 8) (s.drop 8)).orElse (fun _ => core [] s)
  else if ciPrefix "http://".data s then
    (core (s.take 7) (s.drop 7)).orElse (fun _ => core [] s)
  else core [] s

/-- Scan for the first position with a leading word boundary where the domain
pattern matches. -/
def domainSearch (prevW : Bool) : List Char → Option (List Char)
  | [] => none
  | c :: cs =>
    match (if prevW then none else tryDomainAt (c :: cs)) with
    | some d => some d
    | none => domainSearch (isWordCh c) cs

/-- `extractWebsiteFromBriefHTML`: isolate the labelled question block's
answer paragraph, strip `<img>` and all other tags, match the domain pattern
and normalize to an `https://` URL. -/
def extractWebsiteFromBriefHTML (html : String) : Option String :=
  match findLabelPara html.data with
  | none => none
  | some mid =>
    let textOnly := trimJS (stripTags (stripImgTags mid))
    match domainSearch false textOnly with
    | none => none
    | some d => some (if isPrefixL "http".data d then ⟨d⟩ else ⟨"https://".data ++ d⟩)

/-! ## Context extraction (`extractContextFromData`, App.tsx 737-833) -/

/-- JSON-like values (the structured brief). -/
inductive JsonVal where
  | str (s : String)
  | num (n : Int)
  | bool (b : Bool)
  | null
  | arr (elems : List JsonVal)
  | obj (fields : List (String × JsonVal))

/-- The allow-list of business-relevant keys. -/
def priorityKeys : List String :=
  ["business_name", "company_name", "brand", "service", "services", "description",
   "business_description", "about", "objectives", "target_audience",
   "value_proposition", "notes"]

mutual

/-- The recursive `walk` over a JSON value: collect string values of
allow-listed keys; recurse into object-typed values (`walk(null)` returns
nothing). -/
def walkJson : JsonVal → List String
  | .obj fields => walkFields fields
  | .arr elems => walkElems elems
  | _ => []

/-- `Object.entries` iteration over the fields of an object. -/
def walkFields : List (String × JsonVal) → List String
  | [] => []
  | (k, v) :: rest =>
    (match v with
     | .str s => if k ∈ priorityKeys then [s] else []
     | .obj fs => walkFields fs
     | .arr es => walkElems es
     | _ => []) ++ walkFields rest

/-- `Object.entries` iteration over an array (index keys are never in the
allow-list, so only object-typed elements contribute). -/
def walkElems : List JsonVal → List String
  | [] => []
  | v :: rest =>
    (match v with
     | .obj fs => walkFields fs
     | .arr es => walkElems es
     | _ => []) ++ walkElems rest

end

/-- Fueled worker for `dedupKeepFirst`. -/
def dedupKeepFirstF : Nat → List String → List String
  | 0, _ => []
  | _ + 1, [] => []
  | f + 1, x :: xs => x :: dedupKeepFirstF f (xs.filter (fun y => y ≠ x))

/-- JS `.filter((v, i, a) => a.indexOf(v) === i)`: deduplicate keeping the
first occurrence of each value (the filtered tail is never longer than the
tail, so `l.length` is enough fuel). -/
def dedupKeepFirst (l : List String) : List String := dedupKeepFirstF l.length l

/-- A raw brief value: an HTML/plain string, a structured JSON object, or any
other value (stringified by the fallback path). -/
inductive BriefData where
  | str (s : String)
  | json (j : JsonVal)
  | other (stringified : String)

/-- `extractContextFromData`: HTML strings go through the chunk extractor
(the browser's `DOMParser`, abstracted as a parameter) and are deduplicated,
joined with `". "` and sliced to 12000; JSON objects are walked for
allow-listed values and treated the same; everything else is stringified and
sliced to 5000. -/
def extractContextFromData (htmlChunks : String → List String) : BriefData → String
  | .str s =>
    if containsSub ['<'] s.data then
      ⟨(String.intercalate ". " (dedupKeepFirst (htmlChunks s))).data.take 12000⟩
    else ⟨s.data.take 5000⟩
  | .json j =>
    ⟨(String.intercalate ". " (dedupKeepFirst (walkJson j))).data.take 12000⟩
  | .other r => ⟨r.data.take 5000⟩

/-! ## Batch orchestration: per-account article loop
(`autoGenerateOutline` / `autoStartWriting` / `autoPublish` / `autoContinue`,
App.tsx 1746-1939) -/

/-- Collaborator outcomes for one article attempt. -/
structure ArticleOutcome where
  outlineOk : Bool
  writeOk : Bool
  publishUrl : Option String

/-- Observable orchestration events. -/
inductive BatchEvent where
  | outlineStarted (keywords : List String)
  | outlineFailed
  | writeFailed
  | published (url : String)
  | publishFailed
  | accountDone
deriving DecidableEq, Repr

/-- One keyword rotation (`shift` + conditional `push`): JS `if (first)` is
false for the empty string, which would then be dropped. -/
def rotate1 (ks : List String) : List String :=
  match ks with
  | [] => []
  | k :: rest => if k = "" then rest else rest ++ [k]

/-- `autoContinue`'s rotation: starting from the original keyword list,
rotate once per completed article. -/
def rotateKeywords (orig : List String) : Nat → List String
  | 0 => orig
  | n + 1 => rotate1 (rotateKeywords orig n)

/-- The trace of one account's article loop. -/
structure AccountRun where
  events : List BatchEvent
  attempts : List (Nat × List String)
  urls : List String
deriving DecidableEq, Repr

/-- The per-account article loop, with `remaining` articles still to produce
(`total - current`, which `autoPublish`'s unconditional counter increment
decreases by one per attempt):

* each attempt generates an outline from the original keywords rotated once
  per completed article (`autoContinue` → `autoGenerateOutline`);
* an outline failure is logged and the chain returns (`autoGenerateOutline`'s
  `catch` + `return`) — the account's remaining articles are abandoned;
* a writing failure alerts and rethrows (`startWriting`'s `catch`), stopping
  the run — remaining articles are abandoned;
* `publish` catches its own errors and returns a failure result;
  `autoPublish` increments the article counter unconditionally, records the
  URL only on success, and always proceeds to `autoContinue`. -/
def runLoop (outcomes : Nat → ArticleOutcome) (orig : List String) :
    Nat → Nat → AccountRun
  | 0, _ => ⟨[.accountDone], [], []⟩
  | r + 1, current =>
    let kws := rotateKeywords orig current
    let oc := outcomes current
    if oc.outlineOk = false then
      ⟨[.outlineStarted kws, .outlineFailed], [(current, kws)], []⟩
    else if oc.writeOk = false then
      ⟨[.outlineStarted kws, .writeFailed], [(current, kws)], []⟩
    else
      match oc.publishUrl with
      | some u =>
        let rest := runLoop outcomes orig r (current + 1)
        ⟨.outlineStarted kws :: .published u :: rest.events,
         (current, kws) :: rest.attempts, u :: rest.urls⟩
      | none =>
        let rest := runLoop outcomes orig r (current + 1)
        ⟨.outlineStarted kws :: .publishFailed :: rest.events,
         (current, kws) :: rest.attempts, rest.urls⟩

/-- The article loop from a completed-article count `current` (the loop
continues while `current < total`). -/
def runFrom (outcomes : Nat → ArticleOutcome) (orig : List String) (total current : Nat) :
    AccountRun :=
  runLoop outcomes orig (total - current) current

/-- One account's batch production (`loadNextCsvAccount` enters the chain at
article 0 with the freshly stored original keywords). -/
def runAccount (outcomes : Nat → ArticleOutcome) (orig : List String) (total : Nat) :
    AccountRun :=
  runFrom outcomes orig total 0

/-! ## Tracker update (`updateClickUpTasksAutomatic`, App.tsx 1942-2010) -/

/-- JS `split(',')` keeping empty pieces. -/
def splitCommaRaw : List Char → List (List Char)
  | [] => [[]]
  | c :: cs =>
    if c = ',' then [] :: splitCommaRaw cs
    else (splitCommaRaw cs).modifyHead (fun w => c :: w)

/-- `row.task_clickup_ids.split(',').map(id => id.trim()).filter(id =>
id.length > 0)`. -/
def parseTaskIds (s : String) : List String :=
  (((splitCommaRaw s.data).map trimJS).filter (fun t => !t.isEmpty)).map (⟨·⟩)

/-- Observable tracker calls. -/
inductive TrackerEvent where
  | urlSetAttempt (taskId : String) (ok : Bool)
  | completeAttempt (taskId : String) (ok : Bool)
deriving DecidableEq, Repr

/-- Is the event a completion attempt? -/
def TrackerEvent.isComplete : TrackerEvent → Bool
  | .completeAttempt _ _ => true
  | _ => false

/-- The inner task loop of `updateClickUpTasksAutomatic`: for each task id,
break when the URLs are exhausted; attempt the URL-set call; only when it
succeeded, attempt the completion call; count a success only when both
succeeded; the URL index advances for every processed task. -/
def runTasksOfRow (urlSetOk completeOk : String → Bool) (nUrls : Nat) :
    List String → Nat → Nat → List TrackerEvent × Nat × Nat
  | [], urlIndex, succ => ([], urlIndex, succ)
  | t :: rest, urlIndex, succ =>
    if nUrls ≤ urlIndex then ([], urlIndex, succ)
    else
      let u := urlSetOk t
      if u then
        let c := completeOk t
        let succ2 := if c then succ + 1 else succ
        let r := runTasksOfRow urlSetOk completeOk nUrls rest (urlIndex + 1) succ2
        (.urlSetAttempt t u :: .completeAttempt t c :: r.1, r.2)
      else
        let r := runTasksOfRow urlSetOk completeOk nUrls rest (urlIndex + 1) succ
        (.urlSetAttempt t u :: r.1, r.2)

/-- The outer row loop: rows with no task ids are skipped with a warning. -/
def runRows (urlSetOk completeOk : String → Bool) (nUrls : Nat) :
    List String → Nat → Nat → List TrackerEvent × Nat × Nat
  | [], urlIndex, succ => ([], urlIndex, succ)
  | ids :: rest, urlIndex, succ =>
    let taskIds := parseTaskIds ids
    if taskIds.isEmpty then runRows urlSetOk completeOk nUrls rest urlIndex succ
    else
      let r := runTasksOfRow urlSetOk completeOk nUrls taskIds urlIndex succ
      let r2 := runRows urlSetOk completeOk nUrls rest r.2.1 r.2.2
      (r.1 ++ r2.1, r2.2)

/-- `updateClickUpTasksAutomatic`: given the rows' raw `task_clickup_ids`
strings, the published URLs and oracles for the outcome of the two POST
calls, produce the trace of attempted calls and the final success count. -/
def updateClickUpTasksAutomatic (rowTaskIds : List String) (urls : List String)
    (urlSetOk completeOk : String → Bool) : List TrackerEvent × Nat :=
  if rowTaskIds.isEmpty || urls.isEmpty then ([], 0)
  else
    let r := runRows urlSetOk completeOk urls.length rowTaskIds 0 0
    (r.1, r.2.2)

/-! ## Auxiliary notions used by the statements -/

/-- A plain word: non-empty, lowercase ASCII letters only. -/
def plainWord (w : List Char) : Bool := !w.isEmpty && w.all isLowerAlpha

/-- All words plain. -/
def plainWords (ws : List (List Char)) : Bool := ws.all plainWord

/-- A plain URL: scheme/host/path characters only (no `<`, `>`, `"`,
whitespace). -/
def plainUrl (l : List Char) : Bool :=
  l.all (fun c => isLowerAlpha c || ('0' ≤ c && c ≤ '9') || c == ':' || c == '/' ||
    c == '.' || c == '-')

/-- A rendered plain-text paragraph. -/
def renderPara (ws : List (List Char)) : List Char := openP ++ joinSp ws ++ closeP

/-- A rendered section content: a concatenation of paragraphs. -/
def renderSecContent (pss : List (List (List Char))) : List Char :=
  (pss.map renderPara).flatten

/-- A section carrying a rendered content. -/
def mkSecOf (pss : List (List (List Char))) : Sec := ⟨"", "", ⟨renderSecContent pss⟩⟩

/-- All `href` values of anchors across the sections, in document order. -/
def hrefsAll (secs : List Sec) : List (List Char) :=
  (secs.map (fun s => extractHrefs s.content.data)).flatten

/-- Number of paragraphs with at least one naive word, across all sections
(the claim's "non-empty paragraphs"). -/
def nonEmptyParaCount (secs : List Sec) : Nat :=
  (secs.map (fun s =>
    ((scanParas s.content.data).filter
      (fun p => !(naiveWords (stripTags p)).isEmpty)).length)).sum

/-- The length/paragraph caps of the readability claims: every naive sentence
of every paragraph has at most 20 naive words and every paragraph has at most
4 non-blank naive sentences. -/
def satisfiesCaps (html : String) : Bool :=
  (scanParaBodies html.data).all fun body =>
    ((splitDotWS body).all fun sent => (naiveWords sent).length ≤ 20) &&
      ((splitDotWS body).filter (fun x => !(trimJS x).isEmpty)).length ≤ 4

/-- Adjacent-pair predicate: no two consecutive characters `c, d` with
`bad c d`. -/
def adjOK (bad : Char → Char → Bool) : List Char → Bool
  | [] => true
  | [_] => true
  | c :: d :: cs => !bad c d && adjOK bad (d :: cs)

/-- No `'<'` immediately followed by `'a'` (hence no `<a` anywhere). -/
def noLtA (s : List Char) : Bool := adjOK (fun c d => c == '<' && d == 'a') s

/-- Every URL-set success is immediately followed by the completion attempt
for the same task, and nothing else is ever followed by a completion
attempt. -/
def gatedOK : List TrackerEvent → Bool
  | [] => true
  | .urlSetAttempt t true :: .completeAttempt t2 _ :: rest => decide (t = t2) && gatedOK rest
  | .urlSetAttempt _ false :: rest => gatedOK rest
  | _ => false

/-- Is the event a successful completion? -/
def isCompleteTrue : TrackerEvent → Bool
  | .completeAttempt _ true => true
  | _ => false

/-! ## General lemmas about the string primitives -/

theorem isPrefixL_eq_append {p s : List Char} (h : isPrefixL p s = true) :
    s = p ++ s.drop p.length := by
  induction p generalizing s with
  | nil => simp
  | cons a ps ih =>
    cases s with
    | nil => simp [isPrefixL] at h
    | cons c cs =>
      simp only [isPrefixL, Bool.and_eq_true, beq_iff_eq] at h
      simp only [List.drop, List.length_cons, List.cons_append]
      rw [h.1]
      exact congrArg (c :: ·) (ih h.2)

theorem isPrefixL_append_self (p r : List Char) : isPrefixL p (p ++ r) = true := by
  induction p with
  | nil => simp [isPrefixL]
  | cons a ps ih => simp [isPrefixL, ih]

theorem splitFirst?_of_isPrefixL {pat s : List Char} (h : isPrefixL pat s = true) :
    splitFirst? pat s = some ([], s.drop pat.length) := by
  cases s <;> simp only [splitFirst?] <;> simp [h]

/-- At the head of `pat ++ r` the pattern matches immediately. -/
theorem splitFirst?_append_left (pat r : List Char) :
    splitFirst? pat (pat ++ r) = some ([], r) := by
  rw [splitFirst?_of_isPrefixL (isPrefixL_append_self pat r)]
  simp

theorem isPrefixL_cons_of_ne {p c : Char} {ps cs : List Char} (h : p ≠ c) :
    isPrefixL (p :: ps) (c :: cs) = false := by
  simp [isPrefixL, h]

/-- Scanning past characters that cannot start an occurrence of `pat`
(`pat` begins with `'<'` and `xs` contains no `'<'`). -/
theorem splitFirst?_append_of_no_lt {xs : List Char} (hxs : ∀ c ∈ xs, c ≠ '<')
    {ps : List Char} (s : List Char) :
    splitFirst? ('<' :: ps) (xs ++ s) =
      (splitFirst? ('<' :: ps) s).map (fun q => (xs ++ q.1, q.2)) := by
  induction xs with
  | nil => cases h : splitFirst? ('<' :: ps) s <;> simp [h]
  | cons x xt ih =>
    have hx : x ≠ '<' := hxs x (by simp)
    have hpre : isPrefixL ('<' :: ps) (x :: (xt ++ s)) = false :=
      isPrefixL_cons_of_ne (fun h => hx h.symm)
    rw [List.cons_append, splitFirst?, hpre]
    simp only [Bool.false_eq_true, if_false]
    rw [ih (fun c hc => hxs c (by simp [hc]))]
    cases h : splitFirst? ('<' :: ps) s <;> simp

theorem replaceFirstSub_at_head (pat rest repl : List Char) :
    replaceFirstSub (pat ++ rest) pat repl = repl ++ rest := by
  rw [replaceFirstSub, splitFirst?_append_left]
  simp

/-! ## Claim C8: the context extractor is bounded by 12000 characters -/

/-- C8.  For every input — an HTML string (whatever chunks the DOM
extraction produces), a JSON object, or any other value — the context
extractor returns a string of length at most 12000 characters. -/
theorem claim_C8_context_bound (htmlChunks : String → List String) (d : BriefData) :
    (extractContextFromData htmlChunks d).length ≤ 12000 := by
  cases d with
  | str s =>
    simp only [extractContextFromData]
    by_cases h : containsSub ['<'] s.data = true
    · rw [if_pos h]
      exact le_trans (List.length_take_le _ _) (by norm_num)
    · rw [if_neg h]
      exact le_trans (List.length_take_le _ _) (by norm_num)
  | json j =>
    simp only [extractContextFromData]
    exact le_trans (List.length_take_le _ _) (by norm_num)
  | other r =>
    simp only [extractContextFromData]
    exact le_trans (List.length_take_le _ _) (by norm_num)

/-! ## Claim C2: the assembly's hard link gate -/

/-- C2.  In the assembly step, when the client website is non-null and the
total `<a href=` count across all sections after the inserter is below 3,
the assembly fails hard with the blocking error (the article is not
published); when the website is null, linking is skipped entirely and no
link error can be raised. -/
theorem claim_C2_link_gate :
    (∀ (secs : List Sec) (w : String),
      countAnchorsTotal (insertInternalLinksIntoSections secs (generateClientInternalLinks w)).1 < 3 →
      startWritingLinkPhase secs (some w) = Except.error linkBlockMsg) ∧
    (∀ secs : List Sec, startWritingLinkPhase secs none = Except.ok secs) := by
  constructor
  · intro secs w h
    simp only [startWritingLinkPhase]
    rw [if_pos h]
  · intro secs
    rfl

/-- C2 witness: a section with no paragraph markup at all yields 0 anchors,
and the assembly with a known website is blocked. -/
theorem claim_C2_link_gate_witness :
    countAnchorsTotal (insertInternalLinksIntoSections
      [⟨"s1", "t1", "texto sin etiquetas de párrafo"⟩]
      (generateClientInternalLinks "https://cliente.com")).1 < 3 ∧
    startWritingLinkPhase [⟨"s1", "t1", "texto sin etiquetas de párrafo"⟩]
      (some "https://cliente.com") = Except.error linkBlockMsg :=
  ⟨by decide, claim_C2_link_gate.1 _ _ (by decide)⟩

/-! ## Claim C7: website detection on the three specified inputs -/

/-- C7.  Website detection: with the labelled question block whose answer is
"Sí, visita midominio.com" the detector returns `https://midominio.com`;
with the labelled block but no domain-shaped answer it returns none; without
the labelled block it returns none. -/
theorem claim_C7_website_detection :
    extractWebsiteFromBriefHTML
      "<html><h3>¿Tienes página web?</h3><p>Sí, visita midominio.com</p></html>" =
      some "https://midominio.com" ∧
    extractWebsiteFromBriefHTML
      "<html><h3>¿Tienes página web?</h3><p>No, aún no tenemos</p></html>" = none ∧
    extractWebsiteFromBriefHTML
      "<html><h3>Otro título</h3><p>visita midominio.com</p></html>" = none := by
  refine ⟨?_, ?_, ?_⟩ <;> decide

/-! ## Claim C5: tracker update — URL-set failure gates the completion call -/

/-- C5 counterexample.  The claim says the URL-set call and the completion
call are attempted independently.  In the code, a failed URL-set call skips
the completion call entirely: with one task and one URL, when the URL-set
call fails the trace holds only that failed attempt and no completion
attempt at all. -/
theorem claim_C5_counterexample :
    updateClickUpTasksAutomatic ["t1"] ["u1"] (fun _ => false) (fun _ => true) =
      ([TrackerEvent.urlSetAttempt "t1" false], 0) ∧
    ([TrackerEvent.urlSetAttempt "t1" false].all (fun e => ! e.isComplete)) = true := by
  exact ⟨by decide, by decide⟩

theorem isCompleteTrue_urlSet (t : String) (b : Bool) :
    isCompleteTrue (.urlSetAttempt t b) = false := rfl

theorem isCompleteTrue_complete (t : String) (b : Bool) :
    isCompleteTrue (.completeAttempt t b) = b := by cases b <;> rfl

theorem gatedOK_cons_pair (t t2 : String) (b : Bool) (rest : List TrackerEvent) :
    gatedOK (.urlSetAttempt t true :: .completeAttempt t2 b :: rest) =
      (decide (t = t2) && gatedOK rest) := rfl

theorem gatedOK_cons_fail (t : String) (rest : List TrackerEvent) :
    gatedOK (.urlSetAttempt t false :: rest) = gatedOK rest := rfl

theorem runTasksOfRow_spec (f g : String → Bool) (n : Nat) :
    ∀ (ts : List String) (ui sc : Nat),
      gatedOK (runTasksOfRow f g n ts ui sc).1 = true ∧
      (runTasksOfRow f g n ts ui sc).2.2 =
        sc + ((runTasksOfRow f g n ts ui sc).1.countP isCompleteTrue) := by
  intro ts
  induction ts with
  | nil => intro ui sc; simp [runTasksOfRow, gatedOK]
  | cons t rest ih =>
    intro ui sc
    rw [runTasksOfRow]
    by_cases hn : n ≤ ui
    · rw [if_pos hn]
      simp [gatedOK]
    · rw [if_neg hn]
      by_cases hu : f t = true
      · rw [if_pos hu, hu]
        obtain ⟨ih1, ih2⟩ := ih (ui + 1) (if g t then sc + 1 else sc)
        constructor
        · rw [gatedOK_cons_pair]
          simp [ih1]
        · rw [ih2]
          simp only [List.countP_cons, isCompleteTrue_urlSet, isCompleteTrue_complete]
          by_cases hg : g t = true
          · simp [hg]
            omega
          · have hgf : g t = false := by simpa using hg
            simp [hgf]
      · have hft : f t = false := by simpa using hu
        rw [if_neg (by simp [hft]), hft]
        obtain ⟨ih1, ih2⟩ := ih (ui + 1) sc
        constructor
        · rw [gatedOK_cons_fail]
          exact ih1
        · rw [ih2]
          simp [List.countP_cons, isCompleteTrue_urlSet]

theorem gatedOK_append : ∀ {xs ys : List TrackerEvent},
    gatedOK xs = true → gatedOK ys = true → gatedOK (xs ++ ys) = true := by
  intro xs
  induction xs using gatedOK.induct with
  | case1 => intro ys _ hy; simpa
  | case2 t t2 b rest ih =>
    intro ys hx hy
    simp only [gatedOK, Bool.and_eq_true] at hx
    simp only [List.cons_append, gatedOK, Bool.and_eq_true]
    exact ⟨hx.1, ih hx.2 hy⟩
  | case3 t rest ih =>
    intro ys hx hy
    simp only [gatedOK] at hx
    simp only [List.cons_append, gatedOK]
    exact ih hx hy
  | case4 e h1 h2 h3 =>
    intro ys hx hy
    rw [gatedOK.eq_def] at hx
    split at hx
    · exact (h1 rfl).elim
    · exact (h2 _ _ _ _ rfl).elim
    · exact (h3 _ _ rfl).elim
    · simp at hx

theorem runRows_spec (f g : String → Bool) (n : Nat) :
    ∀ (rows : List String) (ui sc : Nat),
      gatedOK (runRows f g n rows ui sc).1 = true ∧
      (runRows f g n rows ui sc).2.2 =
        sc + ((runRows f g n rows ui sc).1.countP isCompleteTrue) := by
  intro rows
  induction rows with
  | nil => intro ui sc; simp [runRows, gatedOK]
  | cons ids rest ih =>
    intro ui sc
    rw [runRows]
    by_cases he : (parseTaskIds ids).isEmpty = true
    · rw [if_pos he]
      exact ih ui sc
    · rw [if_neg he]
      obtain ⟨h1, h2⟩ := runTasksOfRow_spec f g n (parseTaskIds ids) ui sc
      set r := runTasksOfRow f g n (parseTaskIds ids) ui sc with hrdef
      obtain ⟨h3, h4⟩ := ih r.2.1 r.2.2
      set r2 := runRows f g n rest r.2.1 r.2.2 with hr2def
      refine ⟨gatedOK_append h1 h3, ?_⟩
      show r2.2.2 = sc + (r.1 ++ r2.1).countP isCompleteTrue
      rw [List.countP_append, h4, h2]
      omega

/-- C5 amended.  In the tracker update, the completion call for a task is
attempted exactly when that task's URL-set call succeeded (a URL-set failure
skips the completion call), and the success count counts exactly the
fully-successful pairs (the completion attempts that succeeded). -/
theorem claim_C5_amended_completion_gated (rows urls : List String)
    (urlSetOk completeOk : String → Bool) :
    gatedOK (updateClickUpTasksAutomatic rows urls urlSetOk completeOk).1 = true ∧
    (updateClickUpTasksAutomatic rows urls urlSetOk completeOk).2 =
      ((updateClickUpTasksAutomatic rows urls urlSetOk completeOk).1.countP isCompleteTrue) := by
  simp only [updateClickUpTasksAutomatic]
  by_cases h : (rows.isEmpty || urls.isEmpty) = true
  · rw [if_pos h]
    simp [gatedOK]
  · rw [if_neg h]
    obtain ⟨h1, h2⟩ := runRows_spec urlSetOk completeOk urls.length rows 0 0
    exact ⟨h1, by simpa using h2⟩

/-! ## Claim C6: keyword rotation in the batch loop -/

theorem runLoop_attempts_spec (o : Nat → ArticleOutcome) (orig : List String) :
    ∀ (r current : Nat) (pr : Nat × List String),
      pr ∈ (runLoop o orig r current).attempts → pr.2 = rotateKeywords orig pr.1 := by
  intro r
  induction r with
  | zero => intro current pr h; simp [runLoop] at h
  | succ n ih =>
    intro current pr h
    rw [runLoop] at h
    by_cases h1 : (o current).outlineOk = false
    · simp only [h1, if_pos rfl] at h
      simp at h
      rw [h]
    · rw [if_neg h1] at h
      by_cases h2 : (o current).writeOk = false
      · simp only [h2, if_pos rfl] at h
        simp at h
        rw [h]
      · rw [if_neg h2] at h
        cases hu : (o current).publishUrl with
        | some u =>
          rw [hu] at h
          simp only [List.mem_cons] at h
          rcases h with h | h
          · rw [h]
          · exact ih (current + 1) pr h
        | none =>
          rw [hu] at h
          simp only [List.mem_cons] at h
          rcases h with h | h
          · rw [h]
          · exact ih (current + 1) pr h

theorem rotate1_eq_rotate {l : List String} (h : "" ∉ l) : rotate1 l = l.rotate 1 := by
  cases l with
  | nil => simp [rotate1]
  | cons x xs =>
    have hx : ¬x = "" := fun hc => h (by simp [hc])
    simp only [rotate1, if_neg hx]
    rw [List.rotate_cons_succ, List.rotate_zero]

theorem rotateKeywords_eq_rotate {l : List String} (h : "" ∉ l) (k : Nat) :
    rotateKeywords l k = l.rotate k := by
  induction k with
  | zero => simp [rotateKeywords]
  | succ n ih =>
    rw [rotateKeywords, ih]
    have h2 : "" ∉ l.rotate n := fun hc => h ((List.mem_rotate).mp hc)
    rw [rotate1_eq_rotate h2, List.rotate_rotate]

/-- C6.  In the batch loop, whenever article `k` (0-indexed completed count)
is attempted, the keyword list passed to its outline generation is the
account's original keyword list rotated left by `k` positions (one rotation
moves the first keyword to the end, once per completed article, always from
the original list). -/
theorem claim_C6_keyword_rotation (o : Nat → ArticleOutcome) (orig : List String)
    (total k : Nat) (kws : List String) (hne : "" ∉ orig)
    (h : (k, kws) ∈ (runAccount o orig total).attempts) : kws = orig.rotate k := by
  have := runLoop_attempts_spec o orig (total - 0) 0 (k, kws) h
  simpa [rotateKeywords_eq_rotate hne] using this

/-- C6 witness: with keywords `[alfa, beta, gama]` and two articles, article
1's outline is generated from the list rotated once. -/
theorem claim_C6_keyword_rotation_witness :
    ["beta", "gama", "alfa"] = ["alfa", "beta", "gama"].rotate 1 :=
  claim_C6_keyword_rotation (fun _ => ⟨true, true, some "u"⟩) ["alfa", "beta", "gama"]
    2 1 ["beta", "gama", "alfa"] (by decide) (by decide)

/-! ## Claim C4: batch failure semantics -/

/-- C4 counterexample.  The claim says a failure writing/publishing an
article aborts that account's remaining work.  In the code, `publish`
catches its own errors and `autoPublish` advances the counter and continues:
with 2 articles where article 0's publish fails, the trace shows the publish
failure followed by a full attempt of article 1. -/
theorem claim_C4_counterexample :
    runAccount (fun n => ⟨true, true, if n = 0 then none else some "u2"⟩) ["kw"] 2 =
      ⟨[.outlineStarted ["kw"], .publishFailed, .outlineStarted ["kw"],
        .published "u2", .accountDone],
       [(0, ["kw"]), (1, ["kw"])], ["u2"]⟩ := by
  decide

/-- C4 amended.  In the batch loop: an outline failure aborts the account's
remaining work with a surfaced error event; a writing failure aborts the
account's remaining work with a surfaced error event; a publish failure is
surfaced as an event but does not abort — the counter advances and, when
another article remains, that next article is attempted. -/
theorem claim_C4_failure_semantics (o : Nat → ArticleOutcome) (orig : List String)
    (total cur : Nat) (hcur : cur < total) :
    ((o cur).outlineOk = false →
      runFrom o orig total cur =
        ⟨[.outlineStarted (rotateKeywords orig cur), .outlineFailed],
         [(cur, rotateKeywords orig cur)], []⟩) ∧
    ((o cur).outlineOk = true → (o cur).writeOk = false →
      runFrom o orig total cur =
        ⟨[.outlineStarted (rotateKeywords orig cur), .writeFailed],
         [(cur, rotateKeywords orig cur)], []⟩) ∧
    ((o cur).outlineOk = true → (o cur).writeOk = true → (o cur).publishUrl = none →
      runFrom o orig total cur =
        ⟨.outlineStarted (rotateKeywords orig cur) :: .publishFailed ::
          (runFrom o orig total (cur + 1)).events,
         (cur, rotateKeywords orig cur) :: (runFrom o orig total (cur + 1)).attempts,
         (runFrom o orig total (cur + 1)).urls⟩ ∧
      (cur + 1 < total →
        (cur + 1, rotateKeywords orig (cur + 1)) ∈ (runFrom o orig total cur).attempts)) := by
  obtain ⟨r, hr⟩ : ∃ r, total - cur = r + 1 := ⟨total - cur - 1, by omega⟩
  have hr2 : total - (cur + 1) = r := by omega
  refine ⟨?_, ?_, ?_⟩
  · intro h1
    rw [runFrom, hr, runLoop]
    simp [h1]
  · intro h1 h2
    rw [runFrom, hr, runLoop]
    simp [h1, h2]
  · intro h1 h2 h3
    have hmain : runFrom o orig total cur =
        ⟨.outlineStarted (rotateKeywords orig cur) :: .publishFailed ::
          (runFrom o orig total (cur + 1)).events,
         (cur, rotateKeywords orig cur) :: (runFrom o orig total (cur + 1)).attempts,
         (runFrom o orig total (cur + 1)).urls⟩ := by
      rw [runFrom, hr, runLoop]
      simp [h1, h2, h3, runFrom, hr2]
    refine ⟨hmain, ?_⟩
    intro hnext
    obtain ⟨r2, hrr⟩ : ∃ r2, total - (cur + 1) = r2 + 1 := ⟨total - (cur + 1) - 1, by omega⟩
    have hhead : ∃ t, (runFrom o orig total (cur + 1)).attempts =
        (cur + 1, rotateKeywords orig (cur + 1)) :: t := by
      rw [runFrom, hrr, runLoop]
      by_cases q1 : (o (cur + 1)).outlineOk = false
      · exact ⟨[], by simp [q1]⟩
      · rw [if_neg q1]
        by_cases q2 : (o (cur + 1)).writeOk = false
        · exact ⟨[], by simp [q2]⟩
        · rw [if_neg q2]
          cases hu : (o (cur + 1)).publishUrl with
          | some u => exact ⟨_, rfl⟩
          | none => exact ⟨_, rfl⟩
    obtain ⟨t, ht⟩ := hhead
    rw [hmain]
    simp [ht]

/-- C4 witness for the amended statement: a write failure at article 0 aborts
with only the surfaced error in the trace. -/
theorem claim_C4_failure_semantics_witness :
    runFrom (fun _ => ⟨true, false, some "u"⟩) ["kw"] 2 0 =
      ⟨[.outlineStarted ["kw"], .writeFailed], [(0, ["kw"])], []⟩ :=
  (claim_C4_failure_semantics (fun _ => ⟨true, false, some "u"⟩) ["kw"] 2 0
    (by decide)).2.1 rfl rfl

/-! ## Claim C3 (counterexample): the caps do not make the transform
idempotent -/

/-- C3 counterexample.  The input satisfies both caps (4 sentences of 1
naive word each), but step 6 turns `d.E` into `d. E`, so the second
application sees 5 sentences and splits the paragraph: the transform is not
idempotent on inputs merely satisfying the caps. -/
theorem claim_C3_counterexample :
    satisfiesCaps "<p>a. b. c. d.E</p>" = true ∧
    improveReadability (improveReadability "<p>a. b. c. d.E</p>") ≠
      improveReadability "<p>a. b. c. d.E</p>" := by
  exact ⟨by decide, by decide⟩

/-! ## Claim C1 (counterexample): the 3-iff-3-nonempty-paragraphs guarantee
fails in both directions -/

/-- C1 counterexample.  (i) One section with three non-empty one-word
paragraphs: every pass inserts at most one link per section, so only 1 link
is inserted although 3 non-empty paragraphs exist.  (ii) Three sections with
one empty paragraph each: pass 4 accepts paragraphs with zero words, so 3
links are inserted although there are no non-empty paragraphs at all. -/
theorem claim_C1_counterexample :
    ((insertInternalLinksIntoSections [⟨"s1", "t1", "<p>uno</p><p>dos</p><p>tres</p>"⟩]
        ["https://c.com/", "https://c.com/blog", "https://c.com/contacto"]).2 = 1 ∧
      nonEmptyParaCount [⟨"s1", "t1", "<p>uno</p><p>dos</p><p>tres</p>"⟩] = 3) ∧
    ((insertInternalLinksIntoSections
        [⟨"a", "", "<p></p>"⟩, ⟨"b", "", "<p></p>"⟩, ⟨"c", "", "<p></p>"⟩]
        ["https://c.com/", "https://c.com/blog", "https://c.com/contacto"]).2 = 3 ∧
      nonEmptyParaCount
        [⟨"a", "", "<p></p>"⟩, ⟨"b", "", "<p></p>"⟩, ⟨"c", "", "<p></p>"⟩] = 0) := by
  exact ⟨⟨by decide, by decide⟩, ⟨by decide, by decide⟩⟩

/-! ## Plain-word vocabulary: joins, trims and splits of rendered text -/

theorem notWS_of_lower {c : Char} (h : isLowerAlpha c = true) : isWS c = false := by
  cases hws : isWS c with
  | false => rfl
  | true =>
    exfalso
    have hc : ((((c = ' ' ∨ c = '\t') ∨ c = '\n') ∨ c = '\x0b') ∨ c = '\x0c') ∨ c = '\r' := by
      simpa [isWS] using hws
    rcases hc with ((((h' | h') | h') | h') | h') | h' <;> (rw [h'] at h; revert h; decide)

theorem mem_joinSp {ws : List (List Char)} (h : plainWords ws = true) :
    ∀ c ∈ joinSp ws, isLowerAlpha c = true ∨ c = ' ' := by
  induction ws with
  | nil => intro c hc; simp [joinSp, interc] at hc
  | cons w rest ih =>
    simp only [plainWords, List.all_cons, Bool.and_eq_true] at h
    have hw : ∀ c ∈ w, isLowerAlpha c = true := by
      intro c hc
      have h1 := h.1
      simp only [plainWord, Bool.and_eq_true] at h1
      exact List.all_eq_true.mp h1.2 c hc
    cases rest with
    | nil =>
      intro c hc
      simp only [joinSp, interc] at hc
      exact Or.inl (hw c hc)
    | cons x rt =>
      intro c hc
      simp only [joinSp, interc] at hc
      rw [List.append_assoc] at hc
      rcases List.mem_append.mp hc with hc | hc
      · exact Or.inl (hw c hc)
      · rcases List.mem_append.mp hc with hc | hc
        · simp at hc
          exact Or.inr hc
        · exact ih (by simp [plainWords, h.2]) c hc

theorem joinSp_head {ws : List (List Char)} (h : plainWords ws = true) (hne : ws ≠ []) :
    ∃ c rest, joinSp ws = c :: rest ∧ isLowerAlpha c = true := by
  cases ws with
  | nil => exact absurd rfl hne
  | cons w rt =>
    simp only [plainWords, List.all_cons, Bool.and_eq_true, plainWord] at h
    obtain ⟨⟨hne', hall⟩, _⟩ := h
    cases w with
    | nil => simp at hne'
    | cons c cw =>
      have hc : isLowerAlpha c = true := List.all_eq_true.mp hall c (by simp)
      cases rt with
      | nil => exact ⟨c, cw, by simp [joinSp, interc], hc⟩
      | cons x rt' =>
        exact ⟨c, cw ++ ' ' :: interc [' '] (x :: rt'), by simp [joinSp, interc], hc⟩

theorem joinSp_getLast {ws : List (List Char)} (h : plainWords ws = true) (hne : ws ≠ []) :
    ∃ c, (joinSp ws).getLast? = some c ∧ isLowerAlpha c = true := by
  induction ws with
  | nil => exact absurd rfl hne
  | cons w rt ih =>
    simp only [plainWords, List.all_cons, Bool.and_eq_true, plainWord] at h
    obtain ⟨⟨hne', hall⟩, hrt⟩ := h
    cases rt with
    | nil =>
      have hwne : w ≠ [] := by
        cases w with
        | nil => simp at hne'
        | cons a b => simp
      refine ⟨w.getLast hwne, ?_, ?_⟩
      · simpa [joinSp, interc] using List.getLast?_eq_getLast w hwne
      · exact List.all_eq_true.mp hall _ (List.getLast_mem hwne)
    | cons x rt' =>
      obtain ⟨c, hc1, hc2⟩ := ih (by simp [plainWords, hrt]) (by simp)
      refine ⟨c, ?_, hc2⟩
      have hjoin : joinSp (w :: x :: rt') = w ++ (' ' :: joinSp (x :: rt')) := by
        simp [joinSp, interc]
      rw [hjoin, List.getLast?_append_of_ne_nil]
      · rw [List.getLast?_cons]
        cases hj : joinSp (x :: rt') with
        | nil => rw [hj] at hc1; simp at hc1
        | cons a b =>
          rw [hj] at hc1
          simpa [List.getLast?_cons] using hc1
      · simp

theorem trimJS_eq_self {s : List Char}
    (h1 : ∀ c, s.head? = some c → isWS c = false)
    (h2 : ∀ c, s.getLast? = some c → isWS c = false) : trimJS s = s := by
  have hl : s.dropWhile isWS = s := by
    cases s with
    | nil => rfl
    | cons c cs =>
      rw [List.dropWhile_cons, if_neg]
      rw [h1 c rfl]
      simp
  rw [trimJS, hl]
  have hr : s.reverse.dropWhile isWS = s.reverse := by
    cases hs : s.reverse with
    | nil => rfl
    | cons c cs =>
      rw [List.dropWhile_cons, if_neg]
      have : s.getLast? = some c := by
        rw [← List.head?_reverse, hs]
        rfl
      rw [h2 c this]
      simp
  rw [hr, List.reverse_reverse]

theorem trimJS_joinSp {ws : List (List Char)} (h : plainWords ws = true) :
    trimJS (joinSp ws) = joinSp ws := by
  cases hws : ws with
  | nil => rfl
  | cons w rt =>
    rw [← hws]
    have hne : ws ≠ [] := by rw [hws]; simp
    obtain ⟨c, rest, hc1, hc2⟩ := joinSp_head h hne
    obtain ⟨d, hd1, hd2⟩ := joinSp_getLast h hne
    apply trimJS_eq_self
    · intro e he
      rw [hc1] at he
      simp at he
      rw [he] at hc2
      exact notWS_of_lower hc2
    · intro e he
      rw [hd1] at he
      simp at he
      rw [he] at hd2
      exact notWS_of_lower hd2

theorem srAux_word {w : List Char} (hw : ∀ c ∈ w, isWS c = false) (cur t : List Char) :
    srAux cur (w ++ t) = srAux (w.reverse ++ cur) t := by
  induction w generalizing cur with
  | nil => simp
  | cons c w' ih =>
    have hc : isWS c = false := hw c (by simp)
    show srAux cur (c :: (w' ++ t)) = _
    rw [srAux, if_neg (by simp [hc])]
    rw [ih (fun d hd => hw d (by simp [hd])) (c :: cur)]
    simp

theorem splitRuns_joinSp {ws : List (List Char)} (h : plainWords ws = true) :
    splitRuns (joinSp ws) = ws := by
  induction ws with
  | nil => rfl
  | cons w rt ih =>
    simp only [plainWords, List.all_cons, Bool.and_eq_true, plainWord] at h
    obtain ⟨⟨hne', hall⟩, hrt⟩ := h
    have hw : ∀ c ∈ w, isWS c = false := fun c hc =>
      notWS_of_lower (List.all_eq_true.mp hall c hc)
    have hwn : w ≠ [] := by
      cases w with
      | nil => simp at hne'
      | cons a b => simp
    cases rt with
    | nil =>
      show srAux [] (joinSp [w]) = [w]
      have hj : joinSp [w] = w ++ [] := by simp [joinSp, interc]
      rw [hj, srAux_word hw]
      rw [srAux]
      simp [hwn]
    | cons x rt' =>
      show srAux [] (joinSp (w :: x :: rt')) = w :: x :: rt'
      have hj : joinSp (w :: x :: rt') = w ++ (' ' :: joinSp (x :: rt')) := by
        simp [joinSp, interc]
      rw [hj, srAux_word hw]
      rw [srAux, if_pos (by decide)]
      rw [if_neg (by simp [hwn])]
      have : srAux [] (joinSp (x :: rt')) = x :: rt' := ih (by simp [plainWords, hrt])
      rw [this]
      simp

theorem naiveWords_joinSp {ws : List (List Char)} (h : plainWords ws = true) :
    naiveWords (joinSp ws) = ws := by
  rw [naiveWords, trimJS_joinSp h]
  exact splitRuns_joinSp h

theorem plainish_ne {c d : Char} (h : isLowerAlpha c = true ∨ c = ' ')
    (hd : isLowerAlpha d = false) (hd2 : d ≠ ' ') : c ≠ d := by
  rcases h with h | h
  · intro he; rw [he, hd] at h; exact absurd h (by simp)
  · rw [h]; exact fun he => hd2 he.symm

theorem joinSp_ne_lt {ws : List (List Char)} (h : plainWords ws = true) :
    ∀ c ∈ joinSp ws, c ≠ '<' :=
  fun c hc => plainish_ne (mem_joinSp h c hc) (by decide) (by decide)

/-! ## Paragraph scanners on rendered content -/

theorem spAux_collect {xs : List Char} (hxs : ∀ c ∈ xs, c ≠ '<') (buf t : List Char) :
    spAux (some buf) 0 (xs ++ t) = spAux (some (xs.reverse ++ buf)) 0 t := by
  induction xs generalizing buf with
  | nil => simp
  | cons c xs' ih =>
    have hc : c ≠ '<' := hxs c (by simp)
    show spAux (some buf) 0 (c :: (xs' ++ t)) = _
    rw [spAux, if_neg (by simp [closeP, isPrefixL]; intro he; exact absurd he.symm hc)]
    rw [ih (fun d hd => hxs d (by simp [hd])) (c :: buf)]
    simp

theorem scanParas_cons {ws : List (List Char)} (hw : ∀ c ∈ joinSp ws, c ≠ '<')
    (rest : List Char) :
    scanParas (renderPara ws ++ rest) = renderPara ws :: scanParas rest := by
  have h1 : renderPara ws ++ rest =
      '<' :: 'p' :: '>' :: (joinSp ws ++ ('<' :: '/' :: 'p' :: '>' :: rest)) := by
    simp [renderPara, openP, closeP]
  rw [scanParas, h1]
  rw [spAux, if_pos (by simp [openP, isPrefixL])]
  rw [spAux, spAux]
  rw [spAux_collect hw]
  rw [spAux, if_pos (by simp [closeP, isPrefixL])]
  rw [spAux, spAux, spAux]
  simp [renderPara, scanParas]

theorem scanParas_render {pss : List (List (List Char))}
    (h : ∀ ps ∈ pss, plainWords ps = true) :
    scanParas (renderSecContent pss) = pss.map renderPara := by
  induction pss with
  | nil => rfl
  | cons ps rest ih =>
    have hr : renderSecContent (ps :: rest) = renderPara ps ++ renderSecContent rest := by
      simp [renderSecContent]
    rw [hr, scanParas_cons (joinSp_ne_lt (h ps (by simp)))]
    rw [ih (fun q hq => h q (by simp [hq]))]
    simp

/-! ## Tag strippers on rendered paragraphs -/

theorem stAux_skip {xs : List Char} (h : ∀ c ∈ xs, c ≠ '<') (t : List Char) :
    stAux none (xs ++ t) = xs ++ stAux none t := by
  induction xs with
  | nil => simp
  | cons c xs' ih =>
    have hc : c ≠ '<' := h c (by simp)
    show stAux none (c :: (xs' ++ t)) = _
    rw [stAux, if_neg hc]
    rw [ih (fun d hd => h d (by simp [hd]))]
    rfl

theorem stripTags_renderPara {ws : List (List Char)} (h : ∀ c ∈ joinSp ws, c ≠ '<') :
    stripTags (renderPara ws) = joinSp ws := by
  have h1 : renderPara ws = '<' :: 'p' :: '>' :: (joinSp ws ++ closeP) := by
    simp [renderPara, openP]
  rw [stripTags, h1]
  rw [stAux, if_pos rfl]
  rw [stAux, if_neg (by decide)]
  rw [stAux, if_pos rfl, if_neg (by decide)]
  rw [stAux_skip h]
  have : stAux none closeP = [] := rfl
  rw [this, List.append_nil]

theorem stripPTags_cons_ne {c : Char} (h : c ≠ '<') (cs : List Char) :
    stripPTags (c :: cs) = c :: stripPTags cs := by
  rw [stripPTags.eq_def]
  split
  · rename_i heq; exact absurd heq (by simp)
  · rename_i heq; exact absurd (List.cons.inj heq).1 h
  · rename_i heq; exact absurd (List.cons.inj heq).1 h
  · rename_i heq
    obtain ⟨h1, h2⟩ := List.cons.inj heq
    rw [← h1, ← h2]

theorem stripPTags_skip {xs : List Char} (h : ∀ c ∈ xs, c ≠ '<') (t : List Char) :
    stripPTags (xs ++ t) = xs ++ stripPTags t := by
  induction xs with
  | nil => simp
  | cons c xs' ih =>
    show stripPTags (c :: (xs' ++ t)) = _
    rw [stripPTags_cons_ne (h c (by simp))]
    rw [ih (fun d hd => h d (by simp [hd]))]
    rfl

theorem stripPTags_renderPara {ws : List (List Char)} (h : ∀ c ∈ joinSp ws, c ≠ '<') :
    stripPTags (renderPara ws) = joinSp ws := by
  have h1 : renderPara ws = '<' :: 'p' :: '>' :: (joinSp ws ++ closeP) := by
    simp [renderPara, openP]
  rw [h1]
  have hopen : stripPTags ('<' :: 'p' :: '>' :: (joinSp ws ++ closeP)) =
      stripPTags (joinSp ws ++ closeP) := rfl
  rw [hopen, stripPTags_skip h]
  have : stripPTags closeP = [] := rfl
  rw [this, List.append_nil]

/-! ## Adjacent-pair reasoning: absence of `<a` and anchor counting -/

theorem adjOK_tail {bad : Char → Char → Bool} {c : Char} {cs : List Char}
    (h : adjOK bad (c :: cs) = true) : adjOK bad cs = true := by
  cases cs with
  | nil => rfl
  | cons d cs' =>
    rw [adjOK, Bool.and_eq_true] at h
    exact h.2

theorem adjOK_pair {bad : Char → Char → Bool} {c d : Char} {cs : List Char}
    (h : adjOK bad (c :: d :: cs) = true) : bad c d = false := by
  rw [adjOK, Bool.and_eq_true] at h
  have := h.1
  cases hb : bad c d
  · rfl
  · rw [hb] at this; exact absurd this (by simp)

theorem adjOK_append {bad : Char → Char → Bool} {xs ys : List Char}
    (hx : adjOK bad xs = true) (hy : adjOK bad ys = true)
    (hb : ∀ c d, xs.getLast? = some c → ys.head? = some d → bad c d = false) :
    adjOK bad (xs ++ ys) = true := by
  induction xs with
  | nil => simpa using hy
  | cons c xs' ih =>
    cases xs' with
    | nil =>
      cases ys with
      | nil => simpa using hx
      | cons d ys' =>
        show adjOK bad (c :: d :: ys') = true
        rw [adjOK, Bool.and_eq_true]
        exact ⟨by rw [hb c d rfl rfl]; simp, hy⟩
    | cons c2 xs'' =>
      show adjOK bad (c :: (c2 :: (xs'' ++ ys))) = true
      rw [adjOK, Bool.and_eq_true]
      refine ⟨by rw [adjOK_pair hx]; simp, ?_⟩
      exact ih (adjOK_tail hx) (fun e f he hf => hb e f (by
        rw [List.getLast?_cons_cons]
        exact he) hf)

theorem adjOK_of_no_fst {bad : Char → Char → Bool} {s : List Char}
    (h : ∀ c ∈ s, ∀ d, bad c d = false) : adjOK bad s = true := by
  induction s with
  | nil => rfl
  | cons c cs ih =>
    cases cs with
    | nil => rfl
    | cons d cs' =>
      rw [adjOK, Bool.and_eq_true]
      exact ⟨by rw [h c (by simp) d]; simp, ih (fun e he f => h e (by simp [he]) f)⟩

theorem noLtA_of_no_lt {s : List Char} (h : ∀ c ∈ s, c ≠ '<') : noLtA s = true := by
  apply adjOK_of_no_fst
  intro c hc d
  have := h c hc
  simp [this]

theorem noLtA_append {xs ys : List Char} (hx : noLtA xs = true) (hy : noLtA ys = true)
    (hb : xs.getLast? = some '<' → ys.head? ≠ some 'a') : noLtA (xs ++ ys) = true := by
  apply adjOK_append hx hy
  intro c d hc hd
  by_cases h1 : c = '<'
  · by_cases h2 : d = 'a'
    · rw [h1] at hc; rw [h2] at hd; exact absurd hd (hb hc)
    · simp [h2]
  · simp [h1]

theorem noLtA_joinSp {ws : List (List Char)} (h : plainWords ws = true) :
    noLtA (joinSp ws) = true :=
  noLtA_of_no_lt (joinSp_ne_lt h)

theorem noLtA_renderPara {ws : List (List Char)} (h : plainWords ws = true) :
    noLtA (renderPara ws) = true := by
  rw [renderPara]
  show noLtA (openP ++ (joinSp ws ++ closeP)) = true
  apply noLtA_append
  · decide
  · apply noLtA_append (noLtA_joinSp h) (by decide)
    intro hc
    obtain ⟨c, hc1, hc2⟩ := joinSp_getLast h (by
      intro he
      rw [he] at hc
      simp [joinSp, interc] at hc)
    rw [hc] at hc1
    have : c = '<' := by simpa using hc1.symm
    rw [this] at hc2
    exact absurd hc2 (by decide)
  · intro hc
    simp [openP] at hc

theorem noLtA_renderSecContent {pss : List (List (List Char))}
    (h : ∀ ps ∈ pss, plainWords ps = true) : noLtA (renderSecContent pss) = true := by
  induction pss with
  | nil => rfl
  | cons ps rest ih =>
    have hr : renderSecContent (ps :: rest) = renderPara ps ++ renderSecContent rest := by
      simp [renderSecContent]
    rw [hr]
    apply noLtA_append (noLtA_renderPara (h ps (by simp)))
      (ih (fun q hq => h q (by simp [hq])))
    intro hc
    have hlast : (renderPara ps).getLast? = some '>' := by
      rw [renderPara, List.append_assoc]
      rw [List.getLast?_append_of_ne_nil]
      · rw [List.getLast?_append_of_ne_nil]
        · decide
        · decide
      · simp [closeP]
    rw [hlast] at hc
    simp at hc

/-- No occurrence of a pattern starting with `<a` in a string without the
`<a` pair. -/
theorem splitFirst?_eq_none_of_noLtA {ps s : List Char} (h : noLtA s = true) :
    splitFirst? ('<' :: 'a' :: ps) s = none := by
  induction s with
  | nil => rfl
  | cons c cs ih =>
    rw [splitFirst?]
    have hpre : isPrefixL ('<' :: 'a' :: ps) (c :: cs) = false := by
      by_cases h1 : c = '<'
      · cases cs with
        | nil => simp [isPrefixL]
        | cons d cs' =>
          have hp := adjOK_pair h
          rw [h1] at hp ⊢
          simp at hp
          rw [isPrefixL]
          simp [isPrefixL, hp]
          intro he
          exact absurd he.symm hp
      · exact isPrefixL_cons_of_ne (fun he => h1 he.symm)
    rw [hpre]
    simp [ih (adjOK_tail h)]

theorem containsSub_eq_false_of_noLtA {s : List Char} (h : noLtA s = true) :
    containsSub "<a href=".data s = false := by
  have hd : "<a href=".data = '<' :: 'a' :: " href=".data := rfl
  rw [containsSub, hd, splitFirst?_eq_none_of_noLtA h]
  rfl

theorem matchAHrefAt_cons_ne {c : Char} (h : c ≠ '<') (cs : List Char) :
    matchAHrefAt (c :: cs) = none := by
  rw [matchAHrefAt.eq_def]
  split
  · rename_i heq; exact absurd (List.cons.inj heq).1 h
  · rfl

theorem matchAHrefAt_lt_ne {d : Char} (h : d ≠ 'a') (cs : List Char) :
    matchAHrefAt ('<' :: d :: cs) = none := by
  rw [matchAHrefAt.eq_def]
  split
  · rename_i heq; exact absurd (List.cons.inj (List.cons.inj heq).2).1 h
  · rfl

theorem matchAHrefAt_single (c : Char) : matchAHrefAt [c] = none := by
  rw [matchAHrefAt.eq_def]
  split
  · rename_i heq; exact absurd heq (by simp)
  · rfl

theorem countAHref_skip {xs t : List Char} (hx : noLtA xs = true)
    (hb : xs.getLast? = some '<' → t.head? ≠ some 'a') :
    countAHref (xs ++ t) = countAHref t := by
  induction xs with
  | nil => rfl
  | cons c xs' ih =>
    show countAHref (c :: (xs' ++ t)) = _
    rw [countAHref]
    have hnone : matchAHrefAt (c :: (xs' ++ t)) = none := by
      by_cases h1 : c = '<'
      · cases xs' with
        | nil =>
          cases t with
          | nil => rw [h1]; exact matchAHrefAt_single '<'
          | cons d t' =>
            have hd : d ≠ 'a' := by
              intro he
              exact (hb (by rw [h1]; rfl)) (by rw [he]; rfl)
            rw [h1]
            exact matchAHrefAt_lt_ne hd _
        | cons c2 xs'' =>
          have hp := adjOK_pair hx
          rw [h1] at hp ⊢
          simp at hp
          exact matchAHrefAt_lt_ne hp _
      · exact matchAHrefAt_cons_ne h1 _
    rw [hnone]
    have hb' : xs'.getLast? = some '<' → t.head? ≠ some 'a' := by
      intro he
      apply hb
      cases xs' with
      | nil => simp at he
      | cons c2 xs'' => rw [List.getLast?_cons_cons]; exact he
    rw [ih (adjOK_tail hx) hb']
    simp

theorem countAHref_of_noLtA {s : List Char} (h : noLtA s = true) : countAHref s = 0 := by
  have := countAHref_skip (t := []) h (by intro _ hc; simp at hc)
  simpa using this

theorem countAHref_cons_ne {c : Char} (h : c ≠ '<') (cs : List Char) :
    countAHref (c :: cs) = countAHref cs := by
  rw [countAHref, matchAHrefAt_cons_ne h]
  simp

theorem countAHref_anchor (X : List Char) :
    countAHref ("<a href=\"".data ++ X) = 1 + countAHref X := by
  show countAHref ('<' :: 'a' :: ' ' :: 'h' :: 'r' :: 'e' :: 'f' :: '=' :: '"' :: X) =
    1 + countAHref X
  have m1 : matchAHrefAt ('<' :: 'a' :: ' ' :: 'h' :: 'r' :: 'e' :: 'f' :: '=' :: '"' :: X) =
      some ('"' :: X) := rfl
  rw [countAHref, m1]
  rw [countAHref_cons_ne (by decide), countAHref_cons_ne (by decide),
    countAHref_cons_ne (by decide), countAHref_cons_ne (by decide),
    countAHref_cons_ne (by decide), countAHref_cons_ne (by decide),
    countAHref_cons_ne (by decide), countAHref_cons_ne (by decide)]
  simp

theorem takeWhile_all {p : Char → Bool} {xs : List Char} (h : ∀ x ∈ xs, p x = true)
    (ys : List Char) : (xs ++ ys).takeWhile p = xs ++ ys.takeWhile p := by
  induction xs with
  | nil => simp
  | cons c xs' ih =>
    show List.takeWhile p (c :: (xs' ++ ys)) = _
    rw [List.takeWhile_cons, if_pos (by rw [h c (by simp)]), ih (fun d hd => h d (by simp [hd]))]
    rfl

theorem anchorPre_false_of_ne {c : Char} (h : c ≠ '<') (cs : List Char) :
    isPrefixL "<a href=\"".data (c :: cs) = false := by
  exact isPrefixL_cons_of_ne (fun he => h he.symm)

theorem anchorPre_false_of_snd_ne {d : Char} (h : d ≠ 'a') (cs : List Char) :
    isPrefixL "<a href=\"".data ('<' :: d :: cs) = false := by
  show isPrefixL ('<' :: 'a' :: " href=\"".data) ('<' :: d :: cs) = false
  rw [isPrefixL]
  simp [isPrefixL]
  intro he
  exact absurd he.symm h

theorem extractHrefs_cons_of_false {c : Char} {cs : List Char}
    (h : isPrefixL "<a href=\"".data (c :: cs) = false) :
    extractHrefs (c :: cs) = extractHrefs cs := by
  rw [extractHrefs, h]
  simp

theorem extractHrefs_skip {xs t : List Char} (hx : noLtA xs = true)
    (hb : xs.getLast? = some '<' → t.head? ≠ some 'a') :
    extractHrefs (xs ++ t) = extractHrefs t := by
  induction xs with
  | nil => rfl
  | cons c xs' ih =>
    show extractHrefs (c :: (xs' ++ t)) = _
    have hfalse : isPrefixL "<a href=\"".data (c :: (xs' ++ t)) = false := by
      by_cases h1 : c = '<'
      · cases xs' with
        | nil =>
          cases t with
          | nil => rw [h1]; decide
          | cons d t' =>
            have hd : d ≠ 'a' := by
              intro he
              exact (hb (by rw [h1]; rfl)) (by rw [he]; rfl)
            rw [h1]
            exact anchorPre_false_of_snd_ne hd _
        | cons c2 xs'' =>
          have hp := adjOK_pair hx
          rw [h1] at hp ⊢
          simp at hp
          exact anchorPre_false_of_snd_ne hp _
      · exact anchorPre_false_of_ne h1 _
    rw [extractHrefs_cons_of_false hfalse]
    have hb' : xs'.getLast? = some '<' → t.head? ≠ some 'a' := by
      intro he
      apply hb
      cases xs' with
      | nil => simp at he
      | cons c2 xs'' => rw [List.getLast?_cons_cons]; exact he
    exact ih (adjOK_tail hx) hb'

theorem extractHrefs_of_noLtA {s : List Char} (h : noLtA s = true) : extractHrefs s = [] := by
  have := extractHrefs_skip (t := []) h (by intro _ hc; simp at hc)
  simpa using this

theorem extractHrefs_cons_of_true {c : Char} {cs : List Char}
    (h : isPrefixL "<a href=\"".data (c :: cs) = true) :
    extractHrefs (c :: cs) =
      ((c :: cs).drop 9).takeWhile (fun x => x ≠ '\"') :: extractHrefs cs := by
  rw [extractHrefs, h]
  simp

theorem extractHrefs_anchor {l X : List Char} (hl : ∀ c ∈ l, c ≠ '\"' ∧ c ≠ '<') :
    extractHrefs ("<a href=\"".data ++ (l ++ ('\"' :: X))) = l :: extractHrefs X := by
  have hshape : "<a href=\"".data ++ (l ++ ('\"' :: X)) =
      '<' :: ('a' :: ' ' :: 'h' :: 'r' :: 'e' :: 'f' :: '=' :: '\"' :: (l ++ ('\"' :: X))) := rfl
  rw [hshape]
  rw [extractHrefs_cons_of_true (by rw [← hshape]; exact isPrefixL_append_self _ _)]
  have hdrop : (('<' :: ('a' :: ' ' :: 'h' :: 'r' :: 'e' :: 'f' :: '=' :: '\"' ::
      (l ++ ('\"' :: X))))).drop 9 = l ++ ('\"' :: X) := rfl
  rw [hdrop]
  have htake : (l ++ ('\"' :: X)).takeWhile (fun x => x ≠ '\"') = l := by
    rw [takeWhile_all (fun c hc => by simp [(hl c hc).1])]
    simp
  rw [htake]
  have htail : 'a' :: ' ' :: 'h' :: 'r' :: 'e' :: 'f' :: '=' :: '\"' :: (l ++ ('\"' :: X)) =
      ((['a', ' ', 'h', 'r', 'e', 'f', '='] ++ ('\"' :: l)) ++ ['\"']) ++ X := by
    simp
  rw [htail]
  rw [extractHrefs_skip]
  · apply noLtA_of_no_lt
    intro c hc
    rcases List.mem_append.mp hc with hc | hc
    · rcases List.mem_append.mp hc with hc | hc
      · exact (by decide : ∀ c ∈ ['a', ' ', 'h', 'r', 'e', 'f', '='], c ≠ '<') c hc
      · rcases List.mem_cons.mp hc with hc | hc
        · rw [hc]; decide
        · exact (hl c hc).2
    · exact (by decide : ∀ c ∈ ['\"'], c ≠ '<') c hc
  · intro hc
    rw [List.getLast?_append_of_ne_nil _ (by decide)] at hc
    exact absurd hc (by decide)

theorem plainUrl_mem {l : List Char} (h : plainUrl l = true) :
    ∀ c ∈ l, c ≠ '\"' ∧ c ≠ '<' ∧ c ≠ '>' := by
  intro c hc
  have hc' := List.all_eq_true.mp h c hc
  simp only [Bool.or_eq_true] at hc'
  have hne : ∀ d : Char, isLowerAlpha d = false → ('0' ≤ d && d ≤ '9') = false →
      d ≠ ':' → d ≠ '/' → d ≠ '.' → d ≠ '-' → c ≠ d := by
    intro d hd1 hd2 hd3 hd4 hd5 hd6 he
    rcases hc' with ((((h' | h') | h') | h') | h') | h'
    · rw [he, hd1] at h'; exact absurd h' (by simp)
    · rw [he, hd2] at h'; exact absurd h' (by simp)
    · rw [he] at h'; exact hd3 (by simpa using h')
    · rw [he] at h'; exact hd4 (by simpa using h')
    · rw [he] at h'; exact hd5 (by simpa using h')
    · rw [he] at h'; exact hd6 (by simpa using h')
  exact ⟨hne '\"' (by decide) (by decide) (by decide) (by decide) (by decide) (by decide),
    hne '<' (by decide) (by decide) (by decide) (by decide) (by decide) (by decide),
    hne '>' (by decide) (by decide) (by decide) (by decide) (by decide) (by decide)⟩

theorem anchorHtml_shape (l ph t : List Char) :
    anchorHtml l ph ++ t = "<a href=\"".data ++
      (l ++ ('\"' :: (" target=\"_blank\" rel=\"noopener noreferrer\">".data ++ (ph ++ ("</a>".data ++ t))))) := by
  rw [anchorHtml, anchorOpenTag]
  have h1 : "\" target=\"_blank\" rel=\"noopener noreferrer\">".data =
      '\"' :: " target=\"_blank\" rel=\"noopener noreferrer\">".data := rfl
  rw [h1]
  simp

theorem extractHrefs_anchorHtml {l ph t : List Char} (hl : plainUrl l = true)
    (hph : ∀ c ∈ ph, c ≠ '<') :
    extractHrefs (anchorHtml l ph ++ t) = l :: extractHrefs t := by
  rw [anchorHtml_shape]
  rw [extractHrefs_anchor (fun c hc =>
    ⟨(plainUrl_mem hl c hc).1, (plainUrl_mem hl c hc).2.1⟩)]
  have hrest : " target=\"_blank\" rel=\"noopener noreferrer\">".data ++ (ph ++ ("</a>".data ++ t)) =
      ((" target=\"_blank\" rel=\"noopener noreferrer\">".data ++ ph) ++ "</a>".data) ++ t := by
    simp
  rw [hrest, extractHrefs_skip]
  · apply noLtA_append
    · apply noLtA_of_no_lt
      intro c hc
      rcases List.mem_append.mp hc with hc | hc
      · exact (by decide : ∀ c ∈ " target=\"_blank\" rel=\"noopener noreferrer\">".data, c ≠ '<') c hc
      · exact hph c hc
    · decide
    · intro _
      decide
  · intro hc
    rw [List.getLast?_append_of_ne_nil _ (by decide)] at hc
    exact absurd hc (by decide)

theorem countAHref_anchorHtml {l ph t : List Char} (hl : plainUrl l = true)
    (hph : ∀ c ∈ ph, c ≠ '<') :
    countAHref (anchorHtml l ph ++ t) = 1 + countAHref t := by
  rw [anchorHtml_shape, countAHref_anchor]
  have hrest : l ++ ('\"' :: (" target=\"_blank\" rel=\"noopener noreferrer\">".data ++ (ph ++ ("</a>".data ++ t)))) =
      (((l ++ ('\"' :: " target=\"_blank\" rel=\"noopener noreferrer\">".data)) ++ ph) ++ "</a>".data) ++ t := by
    simp
  rw [hrest, countAHref_skip]
  · apply noLtA_append
    · apply noLtA_of_no_lt
      intro c hc
      rcases List.mem_append.mp hc with hc | hc
      · rcases List.mem_append.mp hc with hc | hc
        · exact (plainUrl_mem hl c hc).2.1
        · rcases List.mem_cons.mp hc with hc | hc
          · rw [hc]; decide
          · exact (by decide : ∀ c ∈ " target=\"_blank\" rel=\"noopener noreferrer\">".data, c ≠ '<') c hc
      · exact hph c hc
    · decide
    · intro _
      decide
  · intro hc
    rw [List.getLast?_append_of_ne_nil _ (by decide)] at hc
    exact absurd hc (by decide)

/-! ## The link inserter on sections of short plain paragraphs -/

theorem words_of_rendered {ps : List (List Char)} (h : plainWords ps = true) :
    naiveWords (stripTags (renderPara ps)) = ps := by
  rw [stripTags_renderPara (joinSp_ne_lt h), naiveWords_joinSp h]

theorem firstQualifying_none_of_short {th : Nat} {pss : List (List (List Char))}
    (h : ∀ ps ∈ pss, plainWords ps = true) (hshort : ∀ ps ∈ pss, ps.length < th) :
    firstQualifying th (pss.map renderPara) = none := by
  induction pss with
  | nil => rfl
  | cons ps rest ih =>
    show firstQualifying th (renderPara ps :: rest.map renderPara) = none
    rw [firstQualifying]
    rw [if_neg (by
      rw [words_of_rendered (h ps (by simp))]
      have := hshort ps (by simp)
      omega)]
    exact ih (fun q hq => h q (by simp [hq])) (fun q hq => hshort q (by simp [hq]))

theorem pass1Body_noop {links : List (List Char)} {count : Nat} {sec : Sec}
    (h : firstQualifying 15 (scanParas sec.content.data) = none) :
    pass1Body links count sec = (sec, count) := by
  rw [pass1Body]
  split_ifs with h1
  · rfl
  · simp only [h]
    split <;> rfl

theorem pass2Body_noop {links : List (List Char)} {count : Nat} {sec : Sec}
    (h : firstQualifying 10 (scanParas sec.content.data) = none) :
    pass2Body links count sec = (sec, count) := by
  rw [pass2Body]
  split_ifs with h1 h2
  · rfl
  · rfl
  · simp only [h]

theorem pass3Body_noop {links : List (List Char)} {count : Nat} {sec : Sec}
    (h : firstQualifying 6 (scanParas sec.content.data) = none) :
    pass3Body links count sec = (sec, count) := by
  rw [pass3Body]
  split_ifs with h1 h2
  · rfl
  · rfl
  · simp only [h]

theorem mapCount_noop {body : Nat → Sec → Sec × Nat} {secs : List Sec}
    (h : ∀ s ∈ secs, ∀ k, body k s = (s, k)) (c : Nat) :
    mapCount body secs c = (secs, c) := by
  induction secs generalizing c with
  | nil => rfl
  | cons s rest ih =>
    rw [mapCount]
    rw [h s (by simp) c]
    rw [ih (fun q hq k => h q (by simp [hq]) k) c]

theorem pass4Phrase_no_lt : ∀ c : Nat, ∀ ch ∈ (pass4Phrases.getD c "").data, ch ≠ '<'
  | 0 => by decide
  | 1 => by decide
  | 2 => by decide
  | (n + 3) => by
    have h : pass4Phrases.getD (n + 3) "" = "" := rfl
    rw [h]
    intro ch hch
    simp at hch

theorem pass4Body_capped {ls : List (List Char)} {c : Nat} (hc : 3 ≤ c) (sec : Sec) :
    pass4Body ls c sec = (sec, c) := by
  rw [pass4Body, if_pos (Or.inl hc)]

theorem pass4Body_empty {ls : List (List Char)} {c : Nat} :
    pass4Body ls c (mkSecOf []) = (mkSecOf [], c) := by
  rw [pass4Body, if_pos (Or.inr (show (mkSecOf []).content = "" by decide))]

theorem pass4Body_insert {ls : List (List Char)} {c : Nat} (hc : c < 3)
    (hl : plainUrl (ls.getD c []) = true)
    {pss : List (List (List Char))} (hne : pss ≠ [])
    (hplain : ∀ ps ∈ pss, plainWords ps = true) :
    ∃ d : List Char,
      pass4Body ls c (mkSecOf pss) = (⟨"", "", ⟨d⟩⟩, c + 1) ∧
      countAHref d = 1 ∧ extractHrefs d = [ls.getD c []] := by
  obtain ⟨p₀, rest, rfl⟩ : ∃ a l, pss = a :: l := by
    cases pss with
    | nil => exact absurd rfl hne
    | cons a l => exact ⟨a, l, rfl⟩
  have hp₀ : plainWords p₀ = true := hplain p₀ (by simp)
  have hrest : ∀ ps ∈ rest, plainWords ps = true := fun ps hps => hplain ps (by simp [hps])
  have hdata : (mkSecOf (p₀ :: rest)).content.data =
      renderPara p₀ ++ renderSecContent rest := rfl
  have hscan : scanParas (mkSecOf (p₀ :: rest)).content.data =
      renderPara p₀ :: rest.map renderPara := by
    show scanParas (renderSecContent (p₀ :: rest)) = _
    rw [scanParas_render hplain]
    simp
  have hfind : (scanParas (mkSecOf (p₀ :: rest)).content.data).find?
      (fun p => !containsSub "<a href=".data p) = some (renderPara p₀) := by
    rw [hscan]
    apply List.find?_cons_of_pos
    rw [containsSub_eq_false_of_noLtA (noLtA_renderPara hp₀)]
    rfl
  have hcne : ¬ ((mkSecOf (p₀ :: rest)).content = "") := by
    intro he
    have h2 : (mkSecOf (p₀ :: rest)).content.data = [] := by rw [he]
    rw [hdata] at h2
    simp [renderPara, openP] at h2
  have htext : trimJS (stripPTags (renderPara p₀)) = joinSp p₀ := by
    rw [stripPTags_renderPara (joinSp_ne_lt hp₀), trimJS_joinSp hp₀]
  refine ⟨openP ++ joinSp p₀ ++ ". Puedes ".data ++
      anchorHtml (ls.getD c []) (pass4Phrases.getD c "").data ++ closeP ++
      renderSecContent rest, ?_, ?_, ?_⟩
  · rw [pass4Body, if_neg (by push_neg; exact ⟨by omega, hcne⟩)]
    simp only [hfind]
    rw [htext, hdata, replaceFirstSub_at_head]
    rfl
  · have hshape : openP ++ joinSp p₀ ++ ". Puedes ".data ++
        anchorHtml (ls.getD c []) (pass4Phrases.getD c "").data ++ closeP ++
        renderSecContent rest =
        (openP ++ joinSp p₀ ++ ". Puedes ".data) ++
          (anchorHtml (ls.getD c []) (pass4Phrases.getD c "").data ++
            (closeP ++ renderSecContent rest)) := by
      simp
    rw [hshape]
    rw [countAHref_skip]
    · rw [countAHref_anchorHtml hl (pass4Phrase_no_lt c)]
      rw [countAHref_skip]
      · rw [countAHref_of_noLtA (noLtA_renderSecContent hrest)]
      · decide
      · intro hg
        exact absurd hg (by decide)
    · apply noLtA_append
      · apply noLtA_append
        · decide
        · exact noLtA_joinSp hp₀
        · intro hg
          exact absurd hg (by decide)
      · decide
      · intro _
        decide
    · intro hg he
      rw [List.getLast?_append_of_ne_nil _ (by decide)] at hg
      exact absurd hg (by decide)
  · have hshape : openP ++ joinSp p₀ ++ ". Puedes ".data ++
        anchorHtml (ls.getD c []) (pass4Phrases.getD c "").data ++ closeP ++
        renderSecContent rest =
        (openP ++ joinSp p₀ ++ ". Puedes ".data) ++
          (anchorHtml (ls.getD c []) (pass4Phrases.getD c "").data ++
            (closeP ++ renderSecContent rest)) := by
      simp
    rw [hshape]
    rw [extractHrefs_skip]
    · rw [extractHrefs_anchorHtml hl (pass4Phrase_no_lt c)]
      rw [extractHrefs_skip]
      · rw [extractHrefs_of_noLtA (noLtA_renderSecContent hrest)]
      · decide
      · intro hg
        exact absurd hg (by decide)
    · apply noLtA_append
      · apply noLtA_append
        · decide
        · exact noLtA_joinSp hp₀
        · intro hg
          exact absurd hg (by decide)
      · decide
      · intro _
        decide
    · intro hg he
      rw [List.getLast?_append_of_ne_nil _ (by decide)] at hg
      exact absurd hg (by decide)

theorem countAnchorsTotal_cons (s : Sec) (secs : List Sec) :
    countAnchorsTotal (s :: secs) = countAHref s.content.data + countAnchorsTotal secs := by
  simp [countAnchorsTotal]

theorem hrefsAll_cons (s : Sec) (secs : List Sec) :
    hrefsAll (s :: secs) = extractHrefs s.content.data ++ hrefsAll secs := by
  simp [hrefsAll]

theorem mapCount_pass4_family {ls : List (List Char)} (hlen : ls.length = 3)
    (hpl : ∀ l ∈ ls, plainUrl l = true) (sections : List (List (List (List Char)))) :
    ∀ c : Nat, c ≤ 3 →
      (∀ pss ∈ sections, ∀ ps ∈ pss, plainWords ps = true) →
      (mapCount (pass4Body ls) (sections.map mkSecOf) c).2 =
          min 3 (c + sections.countP (fun pss => !pss.isEmpty)) ∧
        countAnchorsTotal (mapCount (pass4Body ls) (sections.map mkSecOf) c).1 =
          (mapCount (pass4Body ls) (sections.map mkSecOf) c).2 - c ∧
        hrefsAll (mapCount (pass4Body ls) (sections.map mkSecOf) c).1 =
          (ls.drop c).take ((mapCount (pass4Body ls) (sections.map mkSecOf) c).2 - c) := by
  induction sections with
  | nil =>
    intro c hc hplain
    simp [mapCount, countAnchorsTotal, hrefsAll]
    omega
  | cons pss rest ih =>
    intro c hc hplain
    by_cases h3 : 3 ≤ c
    · have hq : pass4Body ls c (mkSecOf pss) = (mkSecOf pss, c) := pass4Body_capped h3 _
      obtain ⟨ih1, ih2, ih3⟩ := ih c hc (fun q hq' => hplain q (by simp [hq']))
      simp only [List.map_cons, mapCount, hq]
      have hr2 : (mapCount (pass4Body ls) (rest.map mkSecOf) c).2 = 3 := by
        rw [ih1]; omega
      refine ⟨?_, ?_, ?_⟩
      · rw [hr2, List.countP_cons]
        split_ifs <;> omega
      · rw [countAnchorsTotal_cons]
        show countAHref (renderSecContent pss) + _ = _
        rw [countAHref_of_noLtA (noLtA_renderSecContent (hplain pss (by simp))), ih2]
        omega
      · rw [hrefsAll_cons]
        show extractHrefs (renderSecContent pss) ++ _ = _
        rw [extractHrefs_of_noLtA (noLtA_renderSecContent (hplain pss (by simp))), ih3]
        simp
    · by_cases hE : pss.isEmpty
      · have hpssnil : pss = [] := by
          cases pss with
          | nil => rfl
          | cons a b => simp at hE
        subst hpssnil
        obtain ⟨ih1, ih2, ih3⟩ := ih c hc (fun q hq' => hplain q (by simp [hq']))
        simp only [List.map_cons, mapCount, pass4Body_empty]
        refine ⟨?_, ?_, ?_⟩
        · rw [ih1, List.countP_cons]
          simp
        · rw [countAnchorsTotal_cons]
          have hz : countAHref (mkSecOf ([] : List (List (List Char)))).content.data = 0 := rfl
          rw [hz, ih2]
          omega
        · rw [hrefsAll_cons]
          have hz : extractHrefs (mkSecOf ([] : List (List (List Char)))).content.data = [] := rfl
          rw [hz, ih3]
          simp
      · have hne : pss ≠ [] := by
          cases pss with
          | nil => simp at hE
          | cons a b => simp
        have hlc : plainUrl (ls.getD c []) = true := by
          have hmem : ls.getD c [] ∈ ls := by
            rw [List.getD_eq_getElem _ _ (by omega)]
            exact List.getElem_mem _
          exact hpl _ hmem
        obtain ⟨d, hd, hd1, hd2⟩ := pass4Body_insert (by omega) hlc hne (hplain pss (by simp))
        obtain ⟨ih1, ih2, ih3⟩ := ih (c + 1) (by omega) (fun q hq' => hplain q (by simp [hq']))
        simp only [List.map_cons, mapCount, hd]
        have hge : c + 1 ≤ (mapCount (pass4Body ls) (rest.map mkSecOf) (c + 1)).2 := by
          rw [ih1]; omega
        have hle3 : (mapCount (pass4Body ls) (rest.map mkSecOf) (c + 1)).2 ≤ 3 := by
          rw [ih1]; omega
        refine ⟨?_, ?_, ?_⟩
        · have hEf : pss.isEmpty = false := by simpa using hE
          rw [ih1, List.countP_cons]
          simp only [hEf, Bool.not_false, if_pos]
          omega
        · rw [countAnchorsTotal_cons]
          show countAHref d + _ = _
          rw [hd1, ih2]
          omega
        · rw [hrefsAll_cons]
          show extractHrefs d ++ _ = _
          rw [hd2, ih3]
          have hdropc : ls.drop c = ls.getD c [] :: ls.drop (c + 1) := by
            rw [List.drop_eq_getElem_cons (show c < ls.length by omega)]
            rw [List.getD_eq_getElem _ _ (by omega)]
          have htk : (mapCount (pass4Body ls) (rest.map mkSecOf) (c + 1)).2 - c =
              ((mapCount (pass4Body ls) (rest.map mkSecOf) (c + 1)).2 - (c + 1)) + 1 := by
            omega
          rw [hdropc, htk, List.take_succ_cons]
          simp

/-! ## Claim C1 (amended): link-insertion counting on short plain sections -/

/-- **C1 (amended).**  Over sections whose paragraphs are short plain texts
(fewer than 6 words each, so passes 1-3 never fire), the inserter's final
counter is `min 3 (number of sections containing at least one paragraph)` —
pass 4 inserts once per section with a paragraph, even a zero-word one, not
once per non-empty paragraph; the output then contains exactly that many
`<a href=` anchors and the href values are the first links in insertion
order. -/
theorem claim_C1_amended {sections : List (List (List (List Char)))} {links : List String}
    (h3 : 3 ≤ links.length)
    (hurl : ∀ l ∈ links.take 3, plainUrl l.data = true)
    (hplain : ∀ pss ∈ sections, ∀ ps ∈ pss, plainWords ps = true)
    (hshort : ∀ pss ∈ sections, ∀ ps ∈ pss, ps.length < 6) :
    (insertInternalLinksIntoSections (sections.map mkSecOf) links).2 =
        min 3 (sections.countP (fun pss => !pss.isEmpty)) ∧
      countAnchorsTotal (insertInternalLinksIntoSections (sections.map mkSecOf) links).1 =
        (insertInternalLinksIntoSections (sections.map mkSecOf) links).2 ∧
      hrefsAll (insertInternalLinksIntoSections (sections.map mkSecOf) links).1 =
        ((links.take 3).map String.data).take
          (insertInternalLinksIntoSections (sections.map mkSecOf) links).2 := by
  have hnot : ¬ links.length < 3 := by omega
  have hlen : ((links.take 3).map String.data).length = 3 := by
    simp
    omega
  have hpl : ∀ l ∈ (links.take 3).map String.data, plainUrl l = true := by
    intro l hl
    obtain ⟨x, hx, rfl⟩ := List.mem_map.mp hl
    exact hurl x hx
  have hnoop : ∀ th : Nat, 6 ≤ th → ∀ s ∈ sections.map mkSecOf,
      firstQualifying th (scanParas s.content.data) = none := by
    intro th hth s hs
    obtain ⟨pss, hpss, rfl⟩ := List.mem_map.mp hs
    show firstQualifying th (scanParas (renderSecContent pss)) = none
    rw [scanParas_render (hplain pss hpss)]
    exact firstQualifying_none_of_short (hplain pss hpss)
      (fun ps hps => by have := hshort pss hpss ps hps; omega)
  have e1 : mapCount (pass1Body ((links.take 3).map String.data)) (sections.map mkSecOf) 0 =
      (sections.map mkSecOf, 0) :=
    mapCount_noop (fun s hs k => pass1Body_noop (hnoop 15 (by omega) s hs)) 0
  have e2 : mapCount (pass2Body ((links.take 3).map String.data)) (sections.map mkSecOf) 0 =
      (sections.map mkSecOf, 0) :=
    mapCount_noop (fun s hs k => pass2Body_noop (hnoop 10 (by omega) s hs)) 0
  have e3 : mapCount (pass3Body ((links.take 3).map String.data)) (sections.map mkSecOf) 0 =
      (sections.map mkSecOf, 0) :=
    mapCount_noop (fun s hs k => pass3Body_noop (hnoop 6 (by omega) s hs)) 0
  have hmain : insertInternalLinksIntoSections (sections.map mkSecOf) links =
      mapCount (pass4Body ((links.take 3).map String.data)) (sections.map mkSecOf) 0 := by
    rw [insertInternalLinksIntoSections, if_neg hnot]
    simp only []
    rw [e1]
    simp only []
    rw [if_pos (show (0 : Nat) < 3 by omega), e2]
    simp only []
    rw [if_pos (show (0 : Nat) < 3 by omega), e3]
    simp only []
    rw [if_pos (show (0 : Nat) < 3 by omega)]
  obtain ⟨f1, f2, f3⟩ := mapCount_pass4_family hlen hpl sections 0 (by omega) hplain
  rw [hmain]
  refine ⟨by rw [f1]; simp, by rw [f2]; simp, by rw [f3]; simp⟩

theorem claim_C1_amended_witness :
    (3 ≤ (["https://c.com/", "https://c.com/blog", "https://c.com/contacto"] :
        List String).length) ∧
    ((insertInternalLinksIntoSections
        (([[["uno".data]], [["dos".data]], [["tres".data]]] :
            List (List (List (List Char)))).map mkSecOf)
        ["https://c.com/", "https://c.com/blog", "https://c.com/contacto"]).2 =
        min 3 (([[["uno".data]], [["dos".data]], [["tres".data]]] :
            List (List (List (List Char)))).countP (fun pss => !pss.isEmpty)) ∧
      countAnchorsTotal (insertInternalLinksIntoSections
        (([[["uno".data]], [["dos".data]], [["tres".data]]] :
            List (List (List (List Char)))).map mkSecOf)
        ["https://c.com/", "https://c.com/blog", "https://c.com/contacto"]).1 =
        (insertInternalLinksIntoSections
        (([[["uno".data]], [["dos".data]], [["tres".data]]] :
            List (List (List (List Char)))).map mkSecOf)
        ["https://c.com/", "https://c.com/blog", "https://c.com/contacto"]).2 ∧
      hrefsAll (insertInternalLinksIntoSections
        (([[["uno".data]], [["dos".data]], [["tres".data]]] :
            List (List (List (List Char)))).map mkSecOf)
        ["https://c.com/", "https://c.com/blog", "https://c.com/contacto"]).1 =
        (((["https://c.com/", "https://c.com/blog", "https://c.com/contacto"] :
            List String).take 3).map String.data).take
          (insertInternalLinksIntoSections
        (([[["uno".data]], [["dos".data]], [["tres".data]]] :
            List (List (List (List Char)))).map mkSecOf)
        ["https://c.com/", "https://c.com/blog", "https://c.com/contacto"]).2) :=
  ⟨by decide, claim_C1_amended (by decide) (by decide) (by decide) (by decide)⟩

/-! ## Claim C10: a rebuilt paragraph carries only the inserted anchor's tags -/

theorem etAux_none_skip {xs : List Char} (h : ∀ c ∈ xs, c ≠ '<') (t : List Char) :
    etAux none (xs ++ t) = etAux none t := by
  induction xs with
  | nil => simp
  | cons c xs' ih =>
    show etAux none (c :: (xs' ++ t)) = _
    rw [etAux, if_neg (h c (by simp))]
    exact ih (fun d hd => h d (by simp [hd]))

theorem etAux_some_collect {xs : List Char} (h : ∀ c ∈ xs, c ≠ '>') (buf t : List Char) :
    etAux (some buf) (xs ++ t) = etAux (some (xs.reverse ++ buf)) t := by
  induction xs generalizing buf with
  | nil => simp
  | cons c xs' ih =>
    show etAux (some buf) (c :: (xs' ++ t)) = _
    rw [etAux, if_neg (h c (by simp))]
    rw [ih (fun d hd => h d (by simp [hd])) (c :: buf)]
    simp

theorem etAux_tag {body : List Char} (hne : body ≠ []) (hb : ∀ c ∈ body, c ≠ '>')
    (t : List Char) :
    etAux none (('<' :: body) ++ ('>' :: t)) = ('<' :: body ++ ['>']) :: etAux none t := by
  show etAux none ('<' :: (body ++ '>' :: t)) = _
  rw [etAux, if_pos rfl]
  rw [etAux_some_collect hb]
  rw [etAux, if_pos rfl]
  rw [if_neg (by simp [hne])]
  simp

theorem trimJS_not_empty_of_mem {s : List Char} {c : Char} (hc : c ∈ s)
    (hws : isWS c = false) : (trimJS s).isEmpty = false := by
  have hkey : trimJS s ≠ [] := by
    intro he
    rw [trimJS] at he
    have h1 : (s.dropWhile isWS).reverse.dropWhile isWS = [] := by
      simpa using he
    have hcd : c ∈ s.dropWhile isWS := by
      have hsplit : s = s.takeWhile isWS ++ s.dropWhile isWS :=
        (List.takeWhile_append_dropWhile isWS s).symm
      rcases List.mem_append.mp (by rw [← hsplit]; exact hc) with hc' | hc'
      · have := List.mem_takeWhile_imp hc'
        rw [hws] at this
        exact absurd this (by simp)
      · exact hc'
    have := List.dropWhile_eq_nil_iff.mp h1 c (by simpa using hcd)
    rw [hws] at this
    exact absurd this (by simp)
  cases htr : trimJS s with
  | nil => exact absurd htr hkey
  | cons a b => rfl

theorem extractTags_para_with_anchor {X Y link anchorText : List Char}
    (hX : ∀ c ∈ X, c ≠ '<') (hY : ∀ c ∈ Y, c ≠ '<')
    (hl : plainUrl link = true) (hat : ∀ c ∈ anchorText, c ≠ '<') :
    extractTags (openP ++ (X ++ (anchorHtml link anchorText ++ Y)) ++ closeP) =
      [openP, anchorOpenTag link, "</a>".data, closeP] := by
  have hopen : openP ++ (X ++ (anchorHtml link anchorText ++ Y)) ++ closeP =
      '<' :: 'p' :: '>' :: (X ++ (anchorHtml link anchorText ++ (Y ++ closeP))) := by
    simp [openP]
  rw [extractTags, hopen]
  rw [etAux, if_pos rfl]
  rw [etAux, if_neg (by decide)]
  rw [etAux, if_pos rfl, if_neg (by simp)]
  rw [etAux_none_skip hX]
  have habody : anchorHtml link anchorText ++ (Y ++ closeP) =
      ('<' :: (('a' :: ' ' :: 'h' :: 'r' :: 'e' :: 'f' :: '=' :: '"' :: link) ++
        "\" target=\"_blank\" rel=\"noopener noreferrer\"".data)) ++
      ('>' :: (anchorText ++ ("</a>".data ++ (Y ++ closeP)))) := by
    rw [anchorHtml, anchorOpenTag]
    have h1 : "\" target=\"_blank\" rel=\"noopener noreferrer\">".data =
        "\" target=\"_blank\" rel=\"noopener noreferrer\"".data ++ ['>'] := by decide
    rw [h1]
    simp
  rw [habody]
  rw [etAux_tag (by simp) (by
    intro c hc
    rcases List.mem_append.mp hc with hc | hc
    · rcases List.mem_cons.mp hc with hc | hc
      · rw [hc]; decide
      · rcases List.mem_cons.mp hc with hc | hc
        · rw [hc]; decide
        · rcases List.mem_cons.mp hc with hc | hc
          · rw [hc]; decide
          · rcases List.mem_cons.mp hc with hc | hc
            · rw [hc]; decide
            · rcases List.mem_cons.mp hc with hc | hc
              · rw [hc]; decide
              · rcases List.mem_cons.mp hc with hc | hc
                · rw [hc]; decide
                · rcases List.mem_cons.mp hc with hc | hc
                  · rw [hc]; decide
                  · rcases List.mem_cons.mp hc with hc | hc
                    · rw [hc]; decide
                    · exact (plainUrl_mem hl c hc).2.2
    · exact (by decide :
        ∀ c ∈ "\" target=\"_blank\" rel=\"noopener noreferrer\"".data, c ≠ '>') c hc)]
  rw [etAux_none_skip hat]
  have hclose : "</a>".data ++ (Y ++ closeP) = ('<' :: ['/', 'a']) ++ ('>' :: (Y ++ closeP)) := rfl
  rw [hclose]
  rw [etAux_tag (by simp) (by decide)]
  rw [etAux_none_skip hY]
  have hfin : etAux none closeP = [closeP] := rfl
  rw [hfin]
  have htag : ('<' :: (('a' :: ' ' :: 'h' :: 'r' :: 'e' :: 'f' :: '=' :: '"' :: link) ++
      "\" target=\"_blank\" rel=\"noopener noreferrer\"".data) ++ ['>']) =
      anchorOpenTag link := by
    rw [anchorOpenTag]
    have h1 : "\" target=\"_blank\" rel=\"noopener noreferrer\">".data =
        "\" target=\"_blank\" rel=\"noopener noreferrer\"".data ++ ['>'] := by decide
    rw [h1]
    simp
  rw [htag]
  rfl

/-- **C10.**  When passes 1-3 rebuild a selected paragraph via `splice`, the
rebuilt paragraph is assembled from the plain tag-stripped words, so the only
markup it contains is the paragraph pair and the single inserted anchor:
its complete tag list is exactly `<p>`, the anchor's opening tag, `</a>`,
`</p>` — any markup previously inside the paragraph is gone. -/
theorem claim_C10_markup {words : List (List Char)} {aStart aEnd : Nat} {link : List Char}
    (hw : plainWords words = true) (hl : plainUrl link = true) :
    extractTags (splice words aStart aEnd link) =
      [openP, anchorOpenTag link, "</a>".data, closeP] := by
  have hsub : ∀ f : List (List Char), (∀ w ∈ f, w ∈ words) → plainWords f = true := by
    intro f hf
    rw [plainWords, List.all_eq_true]
    exact fun w hwf => List.all_eq_true.mp hw w (hf w hwf)
  have hbfp : plainWords (words.take aStart) = true :=
    hsub _ (fun w hwf => List.mem_of_mem_take hwf)
  have hafp : plainWords (words.drop aEnd) = true :=
    hsub _ (fun w hwf => List.mem_of_mem_drop hwf)
  have hatp : plainWords ((words.take aEnd).drop aStart) = true :=
    hsub _ (fun w hwf => List.mem_of_mem_take (List.mem_of_mem_drop hwf))
  have hbfc : ∀ c ∈ joinSp (words.take aStart), c ≠ '<' := joinSp_ne_lt hbfp
  have hafc : ∀ c ∈ joinSp (words.drop aEnd), c ≠ '<' := joinSp_ne_lt hafp
  have hatc : ∀ c ∈ joinSp ((words.take aEnd).drop aStart), c ≠ '<' := joinSp_ne_lt hatp
  have hanchor : (trimJS (anchorHtml link (joinSp ((words.take aEnd).drop aStart)))).isEmpty
      = false := by
    apply trimJS_not_empty_of_mem (c := '<')
    · rw [anchorHtml, anchorOpenTag]
      apply List.mem_append.mpr
      apply Or.inl
      apply List.mem_append.mpr
      apply Or.inl
      apply List.mem_append.mpr
      apply Or.inl
      apply List.mem_append.mpr
      exact Or.inl (by decide)
    · decide
  rw [splice]
  simp only []
  cases hbf : (trimJS (joinSp (words.take aStart))).isEmpty <;>
    cases haf : (trimJS (joinSp (words.drop aEnd))).isEmpty
  · have hparts : [joinSp (words.take aStart),
        anchorHtml link (joinSp ((words.take aEnd).drop aStart)),
        joinSp (words.drop aEnd)].filter (fun pt => !(trimJS pt).isEmpty) =
        [joinSp (words.take aStart),
          anchorHtml link (joinSp ((words.take aEnd).drop aStart)),
          joinSp (words.drop aEnd)] := by
      simp [List.filter, hbf, haf, hanchor]
    rw [hparts]
    have hshape : openP ++ joinSp [joinSp (words.take aStart),
        anchorHtml link (joinSp ((words.take aEnd).drop aStart)),
        joinSp (words.drop aEnd)] ++ closeP =
        openP ++ ((joinSp (words.take aStart) ++ [' ']) ++
          (anchorHtml link (joinSp ((words.take aEnd).drop aStart)) ++
            (' ' :: joinSp (words.drop aEnd)))) ++ closeP := by
      simp [joinSp, interc]
    rw [hshape]
    apply extractTags_para_with_anchor _ _ hl hatc
    · intro c hc
      rcases List.mem_append.mp hc with hc | hc
      · exact hbfc c hc
      · simp at hc
        rw [hc]; decide
    · intro c hc
      rcases List.mem_cons.mp hc with hc | hc
      · rw [hc]; decide
      · exact hafc c hc
  · have hparts : [joinSp (words.take aStart),
        anchorHtml link (joinSp ((words.take aEnd).drop aStart)),
        joinSp (words.drop aEnd)].filter (fun pt => !(trimJS pt).isEmpty) =
        [joinSp (words.take aStart),
          anchorHtml link (joinSp ((words.take aEnd).drop aStart))] := by
      simp [List.filter, hbf, haf, hanchor]
    rw [hparts]
    have hshape : openP ++ joinSp [joinSp (words.take aStart),
        anchorHtml link (joinSp ((words.take aEnd).drop aStart))] ++ closeP =
        openP ++ ((joinSp (words.take aStart) ++ [' ']) ++
          (anchorHtml link (joinSp ((words.take aEnd).drop aStart)) ++ [])) ++ closeP := by
      simp [joinSp, interc]
    rw [hshape]
    apply extractTags_para_with_anchor _ _ hl hatc
    · intro c hc
      rcases List.mem_append.mp hc with hc | hc
      · exact hbfc c hc
      · simp at hc
        rw [hc]; decide
    · intro c hc
      simp at hc
  · have hparts : [joinSp (words.take aStart),
        anchorHtml link (joinSp ((words.take aEnd).drop aStart)),
        joinSp (words.drop aEnd)].filter (fun pt => !(trimJS pt).isEmpty) =
        [anchorHtml link (joinSp ((words.take aEnd).drop aStart)),
          joinSp (words.drop aEnd)] := by
      simp [List.filter, hbf, haf, hanchor]
    rw [hparts]
    have hshape : openP ++ joinSp [anchorHtml link (joinSp ((words.take aEnd).drop aStart)),
        joinSp (words.drop aEnd)] ++ closeP =
        openP ++ ([] ++
          (anchorHtml link (joinSp ((words.take aEnd).drop aStart)) ++
            (' ' :: joinSp (words.drop aEnd)))) ++ closeP := by
      simp [joinSp, interc]
    rw [hshape]
    apply extractTags_para_with_anchor _ _ hl hatc
    · intro c hc
      simp at hc
    · intro c hc
      rcases List.mem_cons.mp hc with hc | hc
      · rw [hc]; decide
      · exact hafc c hc
  · have hparts : [joinSp (words.take aStart),
        anchorHtml link (joinSp ((words.take aEnd).drop aStart)),
        joinSp (words.drop aEnd)].filter (fun pt => !(trimJS pt).isEmpty) =
        [anchorHtml link (joinSp ((words.take aEnd).drop aStart))] := by
      simp [List.filter, hbf, haf, hanchor]
    rw [hparts]
    have hshape : openP ++ joinSp [anchorHtml link (joinSp ((words.take aEnd).drop aStart))] ++
        closeP =
        openP ++ ([] ++
          (anchorHtml link (joinSp ((words.take aEnd).drop aStart)) ++ [])) ++ closeP := by
      simp [joinSp, interc]
    rw [hshape]
    apply extractTags_para_with_anchor _ _ hl hatc
    · intro c hc
      simp at hc
    · intro c hc
      simp at hc

/-! ## Readability machinery: paragraph machines on rendered paragraphs -/

theorem notNL_of_plainish {c : Char} (h : isLowerAlpha c = true ∨ c = ' ') :
    isNL c = false := by
  rcases h with h | h
  · cases hnl : isNL c with
    | false => rfl
    | true =>
      exfalso
      have hc : ((c = '\n' ∨ c = '\r') ∨ c = ' ') ∨ c = ' ' := by
        simpa [isNL] using hnl
      rcases hc with ((h' | h') | h') | h' <;> (rw [h'] at h; revert h; decide)
  · rw [h]; decide

theorem rpAux_collect (cb : List Char → List Char) {xs : List Char}
    (h : ∀ c ∈ xs, c ≠ '<' ∧ isNL c = false) (buf t : List Char) :
    rpAux cb (some buf) 0 (xs ++ t) = rpAux cb (some (xs.reverse ++ buf)) 0 t := by
  induction xs generalizing buf with
  | nil => simp
  | cons c xs' ih =>
    obtain ⟨hc1, hc2⟩ := h c (by simp)
    show rpAux cb (some buf) 0 (c :: (xs' ++ t)) = _
    rw [rpAux, if_neg (by simp [closeP, isPrefixL]; intro he; exact absurd he.symm hc1)]
    rw [if_neg (by simp [hc2])]
    rw [ih (fun d hd => h d (by simp [hd])) (c :: buf)]
    simp

theorem replaceParasNoNL_para (cb : List Char → List Char) {ws : List Char}
    (h : ∀ c ∈ ws, c ≠ '<' ∧ isNL c = false) :
    replaceParasNoNL cb (openP ++ ws ++ closeP) = cb ws := by
  have hshape : openP ++ ws ++ closeP =
      '<' :: 'p' :: '>' :: (ws ++ ('<' :: '/' :: 'p' :: '>' :: [])) := by
    simp [openP, closeP]
  rw [replaceParasNoNL, hshape]
  rw [rpAux, if_pos (by simp [openP, isPrefixL])]
  rw [rpAux, rpAux]
  rw [rpAux_collect cb h]
  rw [rpAux, if_pos (by simp [closeP, isPrefixL])]
  rw [rpAux, rpAux, rpAux, rpAux]
  simp

theorem sbAux_collect {xs : List Char}
    (h : ∀ c ∈ xs, c ≠ '<' ∧ isNL c = false) (buf t : List Char) :
    sbAux (some buf) 0 (xs ++ t) = sbAux (some (xs.reverse ++ buf)) 0 t := by
  induction xs generalizing buf with
  | nil => simp
  | cons c xs' ih =>
    obtain ⟨hc1, hc2⟩ := h c (by simp)
    show sbAux (some buf) 0 (c :: (xs' ++ t)) = _
    rw [sbAux, if_neg (by simp [closeP, isPrefixL]; intro he; exact absurd he.symm hc1)]
    rw [if_neg (by simp [hc2])]
    rw [ih (fun d hd => h d (by simp [hd])) (c :: buf)]
    simp

theorem scanParaBodies_para {ws : List Char}
    (h : ∀ c ∈ ws, c ≠ '<' ∧ isNL c = false) :
    scanParaBodies (openP ++ ws ++ closeP) = [ws] := by
  have hshape : openP ++ ws ++ closeP =
      '<' :: 'p' :: '>' :: (ws ++ ('<' :: '/' :: 'p' :: '>' :: [])) := by
    simp [openP, closeP]
  rw [scanParaBodies, hshape]
  rw [sbAux, if_pos (by simp [openP, isPrefixL])]
  rw [sbAux, sbAux]
  rw [sbAux_collect h]
  rw [sbAux, if_pos (by simp [closeP, isPrefixL])]
  rw [sbAux, sbAux, sbAux, sbAux]
  simp

/-! ## Sentence splitting on dot-free and one-dot texts -/

theorem modifyHead_modifyHead (f g : List Char → List Char) (l : List (List Char)) :
    (l.modifyHead g).modifyHead f = l.modifyHead (fun w => f (g w)) := by
  cases l <;> simp [List.modifyHead]

theorem sdwAux_false_no_dot {s : List Char} (h : ∀ c ∈ s, c ≠ '.') :
    sdwAux false s = [s] := by
  induction s with
  | nil => rfl
  | cons c cs ih =>
    simp only [sdwAux]
    rw [if_neg (by simp [h c (by simp)])]
    rw [ih (fun d hd => h d (by simp [hd]))]
    rfl

theorem sdwAux_false_prepend {A : List Char} (h : ∀ c ∈ A, c ≠ '.') (t : List Char) :
    sdwAux false (A ++ t) = (sdwAux false t).modifyHead (fun w => A ++ w) := by
  induction A with
  | nil =>
    cases h' : sdwAux false t <;> simp [List.modifyHead, h']
  | cons c A' ih =>
    show sdwAux false (c :: (A' ++ t)) = _
    simp only [sdwAux]
    rw [if_neg (by simp [h c (by simp)])]
    rw [ih (fun d hd => h d (by simp [hd]))]
    rw [modifyHead_modifyHead]
    rfl

theorem sdwAux_true_of_head_not_ws {s : List Char}
    (h : ∀ c, s.head? = some c → isWS c = false) : sdwAux true s = sdwAux false s := by
  cases s with
  | nil => rfl
  | cons c cs =>
    simp only [sdwAux]
    rw [if_neg (by rw [h c rfl]; simp)]

theorem splitDotWS_two {A B : List Char} (hA : ∀ c ∈ A, c ≠ '.')
    (hB : ∀ c ∈ B, c ≠ '.') (hBh : ∀ c, B.head? = some c → isWS c = false) :
    splitDotWS (A ++ ('.' :: ' ' :: B)) = [A, B] := by
  rw [splitDotWS, sdwAux_false_prepend hA]
  have h1 : sdwAux false ('.' :: ' ' :: B) = [] :: sdwAux true B := by
    simp only [sdwAux]
    rw [if_pos (by decide), if_pos (by decide)]
  rw [h1, sdwAux_true_of_head_not_ws hBh, sdwAux_false_no_dot hB]
  simp

/-! ## Cleanup no-ops: adjacency predicates over plain joined words -/

theorem noDoubleWS_eq_adjOK (s : List Char) :
    noDoubleWS s = adjOK (fun c d => isWS c && isWS d) s := by
  induction s with
  | nil => rfl
  | cons c cs ih =>
    cases cs with
    | nil => rfl
    | cons d ds =>
      rw [noDoubleWS, adjOK, ih]

theorem noDoubleDot_eq_adjOK (s : List Char) :
    noDoubleDot s = adjOK (fun c d => decide (c = '.') && decide (d = '.')) s := by
  induction s with
  | nil => rfl
  | cons c cs ih =>
    cases cs with
    | nil => rfl
    | cons d ds =>
      rw [noDoubleDot, adjOK, ih]

theorem noDotUpper_eq_adjOK (s : List Char) :
    noDotUpper s = adjOK (fun c d => decide (c = '.') && isUpper d) s := by
  induction s with
  | nil => rfl
  | cons c cs ih =>
    cases cs with
    | nil => rfl
    | cons d ds =>
      rw [noDotUpper, adjOK, ih]

theorem noDotSpDot_of_no_dot {s : List Char} (h : ∀ c ∈ s, c ≠ '.') :
    noDotSpDot s = true := by
  induction s with
  | nil => rfl
  | cons c cs ih =>
    rw [noDotSpDot]
    rw [ih (fun d hd => h d (by simp [hd]))]
    simp [h c (by simp)]

theorem adjOK_joinSp_of_plain {bad : Char → Char → Bool}
    (hno : ∀ c d, isLowerAlpha c = true → bad c d = false)
    (hsp : ∀ d, isLowerAlpha d = true → bad ' ' d = false)
    {ws : List (List Char)} (h : plainWords ws = true) : adjOK bad (joinSp ws) = true := by
  induction ws with
  | nil => rfl
  | cons w rt ih =>
    simp only [plainWords, List.all_cons, Bool.and_eq_true, plainWord] at h
    obtain ⟨⟨hne', hall⟩, hrt⟩ := h
    have hwl : ∀ c ∈ w, isLowerAlpha c = true := fun c hc => List.all_eq_true.mp hall c hc
    cases rt with
    | nil =>
      show adjOK bad (joinSp [w]) = true
      have : joinSp [w] = w := by simp [joinSp, interc]
      rw [this]
      exact adjOK_of_no_fst (fun c hc d => hno c d (hwl c hc))
    | cons x rt' =>
      have hplain' : plainWords (x :: rt') = true := by simp [plainWords, hrt]
      have hj : joinSp (w :: x :: rt') = w ++ (' ' :: joinSp (x :: rt')) := by
        simp [joinSp, interc]
      rw [hj]
      apply adjOK_append
      · exact adjOK_of_no_fst (fun c hc d => hno c d (hwl c hc))
      · show adjOK bad (' ' :: joinSp (x :: rt')) = true
        cases hjx : joinSp (x :: rt') with
        | nil => rfl
        | cons a b =>
          rw [adjOK, Bool.and_eq_true]
          constructor
          · obtain ⟨c0, r0, hc1, hc2⟩ := joinSp_head hplain' (by simp)
            rw [hjx] at hc1
            have : a = c0 := (List.cons.inj hc1).1
            rw [this, hsp c0 hc2]
            simp
          · rw [← hjx]
            exact ih hplain'
      · intro c d hc hd
        simp at hd
        rw [← hd]
        exact hno c ' ' (hwl c (by
          have hwne : w ≠ [] := by
            cases w with
            | nil => simp at hne'
            | cons a b => simp
          rw [List.getLast?_eq_getLast w hwne] at hc
          have : c = w.getLast hwne := by simpa using hc.symm
          rw [this]
          exact List.getLast_mem hwne))

theorem adjOK_wrapP {bad : Char → Char → Bool} {X : List Char}
    (hX : adjOK bad X = true) (hopen : adjOK bad openP = true)
    (hclose : adjOK bad closeP = true)
    (hgt : ∀ d, bad '>' d = false) (hlt : ∀ c, bad c '<' = false) :
    adjOK bad (openP ++ X ++ closeP) = true := by
  apply adjOK_append
  · apply adjOK_append hopen hX
    intro c d hc _
    have hco : c = '>' := by
      rw [(by decide : openP.getLast? = some '>')] at hc
      simpa using hc.symm
    rw [hco]
    exact hgt d
  · exact hclose
  · intro c d _ hd
    have hdo : d = '<' := by
      rw [(by decide : closeP.head? = some '<')] at hd
      simpa using hd.symm
    rw [hdo]
    exact hlt c

theorem foldlCI_noop {rules : List (String × String)} {s : List Char}
    (h : ∀ pr ∈ rules, occursCI pr.1.data s = false) :
    rules.foldl (fun acc pr => replaceAllCI pr.1.data pr.2.data acc) s = s := by
  induction rules with
  | nil => rfl
  | cons r rs ih =>
    rw [List.foldl_cons, replaceAllCI_of_not_occurs (h r (by simp))]
    exact ih (fun pr hpr => h pr (by simp [hpr]))

theorem foldlWB_noop {rules : List (String × String)} {s : List Char}
    (h : ∀ pr ∈ rules, occursWB pr.1.data s = false) :
    rules.foldl (fun acc pr => replaceAllWB pr.1.data pr.2.data acc) s = s := by
  induction rules with
  | nil => rfl
  | cons r rs ih =>
    rw [List.foldl_cons, replaceAllWB_of_not_occurs (h r (by simp))]
    exact ih (fun pr hpr => h pr (by simp [hpr]))

theorem caps_of_plain_short {ws : List (List Char)} (hpw : plainWords ws = true)
    (hlen : ws.length ≤ 20) : satisfiesCaps ⟨renderPara ws⟩ = true := by
  have hchars : ∀ c ∈ joinSp ws, c ≠ '<' ∧ isNL c = false := fun c hc =>
    ⟨joinSp_ne_lt hpw c hc, notNL_of_plainish (mem_joinSp hpw c hc)⟩
  have hnodot : ∀ c ∈ joinSp ws, c ≠ '.' := fun c hc =>
    plainish_ne (mem_joinSp hpw c hc) (by decide) (by decide)
  rw [satisfiesCaps]
  have hd : (⟨renderPara ws⟩ : String).data = openP ++ joinSp ws ++ closeP := rfl
  rw [hd, scanParaBodies_para hchars]
  have hsplit : splitDotWS (joinSp ws) = [joinSp ws] := sdwAux_false_no_dot hnodot
  simp only [List.all_cons, List.all_nil, Bool.and_true, hsplit]
  rw [naiveWords_joinSp hpw]
  have h1 : (decide (ws.length ≤ 20)) = true := by simp [hlen]
  rw [h1]
  have h2 : (([joinSp ws].filter (fun x => !(trimJS x).isEmpty)).length ≤ 4) := by
    have := List.length_filter_le (fun x => !(trimJS x).isEmpty) [joinSp ws]
    simp at this
    omega
  simp [h2]

/-- A fully plain rendered paragraph passes through `improveReadability`
unchanged. -/
theorem improveReadability_plain_fixed {ws : List (List Char)}
    (hpw : plainWords ws = true) (hlen : ws.length ≤ 20)
    (hconn : ∀ pr ∈ connectorRules, occursCI pr.1.data (renderPara ws) = false)
    (hvocab : ∀ pr ∈ vocabRules, occursWB pr.1.data (renderPara ws) = false) :
    improveReadability ⟨renderPara ws⟩ = ⟨renderPara ws⟩ := by
  have hchars : ∀ c ∈ joinSp ws, c ≠ '<' ∧ isNL c = false := fun c hc =>
    ⟨joinSp_ne_lt hpw c hc, notNL_of_plainish (mem_joinSp hpw c hc)⟩
  have hnodot : ∀ c ∈ joinSp ws, c ≠ '.' := fun c hc =>
    plainish_ne (mem_joinSp hpw c hc) (by decide) (by decide)
  have hnodotFull : ∀ c ∈ renderPara ws, c ≠ '.' := by
    intro c hc
    rw [renderPara] at hc
    rcases List.mem_append.mp hc with hc | hc
    · rcases List.mem_append.mp hc with hc | hc
      · exact (by decide : ∀ c ∈ openP, c ≠ '.') c hc
      · exact hnodot c hc
    · exact (by decide : ∀ c ∈ closeP, c ≠ '.') c hc
  have hne : ¬(⟨renderPara ws⟩ : String) = "" := by
    intro he
    have h0 : renderPara ws = [] := congrArg String.data he
    simp [renderPara, openP] at h0
  have hs1 : replaceParasNoNL step1Cb (renderPara ws) = renderPara ws := by
    rw [renderPara, replaceParasNoNL_para step1Cb hchars]
    rw [step1Cb]
    have hsplit : splitDotWS (joinSp ws) = [joinSp ws] := sdwAux_false_no_dot hnodot
    rw [hsplit]
    simp only [List.map_cons, List.map_nil]
    rw [step1Sentence]
    rw [naiveWords_joinSp hpw]
    rw [if_neg (by omega)]
    have hi : interc ['.', ' '] [joinSp ws] = joinSp ws := by simp [interc]
    rw [hi, trimJS_joinSp hpw]
  have hs2 : replaceParasNoNL step2Cb (renderPara ws) = renderPara ws := by
    rw [renderPara, replaceParasNoNL_para step2Cb hchars]
    rw [step2Cb]
    have hsplit : splitDotWS (joinSp ws) = [joinSp ws] := sdwAux_false_no_dot hnodot
    simp only [hsplit]
    rw [if_neg (by
      have := List.length_filter_le (fun x => !(trimJS x).isEmpty) [joinSp ws]
      simp at this
      omega)]
  have hWS : noDoubleWS (renderPara ws) = true := by
    rw [noDoubleWS_eq_adjOK, renderPara]
    apply adjOK_wrapP
    · apply adjOK_joinSp_of_plain _ _ hpw
      · intro c d hc
        rw [notWS_of_lower hc]
        simp
      · intro d hd
        rw [notWS_of_lower hd]
        simp
    · decide
    · decide
    · intro d
      rw [(by decide : isWS '>' = false)]
      simp
    · intro c
      rw [(by decide : isWS '<' = false)]
      simp
  have hDD : noDoubleDot (renderPara ws) = true := by
    rw [noDoubleDot_eq_adjOK]
    exact adjOK_of_no_fst (fun c hc d => by simp [hnodotFull c hc])
  have hDU : noDotUpper (renderPara ws) = true := by
    rw [noDotUpper_eq_adjOK]
    exact adjOK_of_no_fst (fun c hc d => by simp [hnodotFull c hc])
  have hc1 : collapseWS (renderPara ws) = renderPara ws := cwAux_of_noDoubleWS hWS
  have hc2 : collapseDots (renderPara ws) = renderPara ws := cdAux_of_noDoubleDot hDD
  have hc3 : dotSpDot (renderPara ws) = renderPara ws :=
    dsdAux_of_noDotSpDot (noDotSpDot_of_no_dot hnodotFull)
  have hc4 : dotUpper (renderPara ws) = renderPara ws := dotUpper_of_noDotUpper hDU
  rw [improveReadability, if_neg hne]
  simp only []
  rw [hs1, hs2, foldlCI_noop hconn, foldlWB_noop hvocab, hc1, hc2, hc3, hc4]

/-- **C3 (amended).**  On plain single-paragraph inputs inside the caps on
which no connector or vocabulary rule fires, the transform is the identity —
hence idempotent there.  (On general inputs satisfying the caps the original
idempotence claim is false: the counterexample shows a second application
keeps rewriting.) -/
theorem claim_C3_amended {ws : List (List Char)} (hpw : plainWords ws = true)
    (hlen : ws.length ≤ 20)
    (hconn : ∀ pr ∈ connectorRules, occursCI pr.1.data (renderPara ws) = false)
    (hvocab : ∀ pr ∈ vocabRules, occursWB pr.1.data (renderPara ws) = false) :
    satisfiesCaps ⟨renderPara ws⟩ = true ∧
    improveReadability ⟨renderPara ws⟩ = ⟨renderPara ws⟩ ∧
    improveReadability (improveReadability ⟨renderPara ws⟩) =
      improveReadability ⟨renderPara ws⟩ := by
  have hfix := improveReadability_plain_fixed hpw hlen hconn hvocab
  exact ⟨caps_of_plain_short hpw hlen, hfix, by rw [hfix]; exact hfix⟩

theorem claim_C3_amended_witness :
    plainWords ["hola".data, "mundo".data] = true ∧
    (["hola".data, "mundo".data] : List (List Char)).length ≤ 20 ∧
    (∀ pr ∈ connectorRules,
      occursCI pr.1.data (renderPara ["hola".data, "mundo".data]) = false) ∧
    (∀ pr ∈ vocabRules,
      occursWB pr.1.data (renderPara ["hola".data, "mundo".data]) = false) ∧
    (satisfiesCaps ⟨renderPara ["hola".data, "mundo".data]⟩ = true ∧
      improveReadability ⟨renderPara ["hola".data, "mundo".data]⟩ =
        ⟨renderPara ["hola".data, "mundo".data]⟩ ∧
      improveReadability (improveReadability ⟨renderPara ["hola".data, "mundo".data]⟩) =
        improveReadability ⟨renderPara ["hola".data, "mundo".data]⟩) :=
  ⟨by decide, by decide, by decide, by decide,
    claim_C3_amended (by decide) (by decide) (by decide) (by decide)⟩

theorem noDotSpDot_of_nodot_prefix {xs t : List Char} (hx : ∀ c ∈ xs, c ≠ '.')
    (ht : noDotSpDot t = true) : noDotSpDot (xs ++ t) = true := by
  induction xs with
  | nil => simpa using ht
  | cons c xs' ih =>
    show noDotSpDot (c :: (xs' ++ t)) = true
    rw [noDotSpDot]
    rw [ih (fun d hd => hx d (by simp [hd]))]
    simp [hx c (by simp)]

theorem adjOK_sp_cons {bad : Char → Char → Bool}
    (hno : ∀ c d, isLowerAlpha c = true → bad c d = false)
    (hsp : ∀ d, isLowerAlpha d = true → bad ' ' d = false)
    {w2 : List (List Char)} (h2 : plainWords w2 = true) :
    adjOK bad (' ' :: joinSp w2) = true := by
  cases hjx : joinSp w2 with
  | nil => rfl
  | cons a b =>
    rw [adjOK, Bool.and_eq_true]
    constructor
    · have hane : w2 ≠ [] := by
        intro he
        rw [he] at hjx
        simp [joinSp, interc] at hjx
      obtain ⟨c0, r0, hc1, hc2⟩ := joinSp_head h2 hane
      rw [hjx] at hc1
      have : a = c0 := (List.cons.inj hc1).1
      rw [this, hsp c0 hc2]
      simp
    · rw [← hjx]
      exact adjOK_joinSp_of_plain hno hsp h2

theorem adjOK_split_body {bad : Char → Char → Bool}
    (hno : ∀ c d, isLowerAlpha c = true → bad c d = false)
    (hsp : ∀ d, isLowerAlpha d = true → bad ' ' d = false)
    (hdotsp : bad '.' ' ' = false)
    {w1 w2 : List (List Char)} (h1 : plainWords w1 = true) (h2 : plainWords w2 = true) :
    adjOK bad (joinSp w1 ++ ('.' :: ' ' :: joinSp w2)) = true := by
  apply adjOK_append (adjOK_joinSp_of_plain hno hsp h1)
  · rw [adjOK, Bool.and_eq_true]
    exact ⟨by rw [hdotsp]; simp, adjOK_sp_cons hno hsp h2⟩
  · intro c d hc hd
    have hdq : d = '.' := by simpa using hd.symm
    obtain ⟨c0, hc1, hc2⟩ := joinSp_getLast h1 (by
      intro he
      rw [he] at hc
      simp [joinSp, interc] at hc)
    rw [hc1] at hc
    have : c = c0 := by simpa using hc.symm
    rw [this]
    exact hno c0 d hc2

/-- **C9.**  On a plain rendered paragraph of more than 20 naive words on
whose split result no connector or vocabulary rule fires, the transform
outputs the paragraph split at the word midpoint into two sentences rejoined
with `". "`: the output region holds exactly 2 sentences whose naive word
lists are the two halves (`words.length / 2` and the remainder), each at most
the original count. -/
theorem claim_C9_sentence_split {ws : List (List Char)} (hpw : plainWords ws = true)
    (hlong : 20 < ws.length)
    (hconn : ∀ pr ∈ connectorRules, occursCI pr.1.data
      (openP ++ (joinSp (ws.take (ws.length / 2)) ++
        '.' :: ' ' :: joinSp (ws.drop (ws.length / 2))) ++ closeP) = false)
    (hvocab : ∀ pr ∈ vocabRules, occursWB pr.1.data
      (openP ++ (joinSp (ws.take (ws.length / 2)) ++
        '.' :: ' ' :: joinSp (ws.drop (ws.length / 2))) ++ closeP) = false) :
    improveReadability ⟨renderPara ws⟩ =
      ⟨openP ++ (joinSp (ws.take (ws.length / 2)) ++
        '.' :: ' ' :: joinSp (ws.drop (ws.length / 2))) ++ closeP⟩ ∧
    (splitDotWS (joinSp (ws.take (ws.length / 2)) ++
        '.' :: ' ' :: joinSp (ws.drop (ws.length / 2)))).map naiveWords =
      [ws.take (ws.length / 2), ws.drop (ws.length / 2)] ∧
    (ws.take (ws.length / 2)).length = ws.length / 2 ∧
    (ws.drop (ws.length / 2)).length = ws.length - ws.length / 2 := by
  have hsub : ∀ f : List (List Char), (∀ w ∈ f, w ∈ ws) → plainWords f = true := by
    intro f hf
    rw [plainWords, List.all_eq_true]
    exact fun w hwf => List.all_eq_true.mp hpw w (hf w hwf)
  have htp : plainWords (ws.take (ws.length / 2)) = true :=
    hsub _ (fun w hwf => List.mem_of_mem_take hwf)
  have hdp : plainWords (ws.drop (ws.length / 2)) = true :=
    hsub _ (fun w hwf => List.mem_of_mem_drop hwf)
  have htne : ws.take (ws.length / 2) ≠ [] := by
    have : (ws.take (ws.length / 2)).length = ws.length / 2 := by
      rw [List.length_take]
      omega
    intro he
    rw [he] at this
    simp at this
    omega
  have hdne : ws.drop (ws.length / 2) ≠ [] := by
    have : (ws.drop (ws.length / 2)).length = ws.length - ws.length / 2 := by
      rw [List.length_drop]
    intro he
    rw [he] at this
    simp at this
    omega
  have hS1 := joinSp_head htp htne
  have hS2h := joinSp_head hdp hdne
  have hS2l := joinSp_getLast hdp hdne
  have hS1l := joinSp_getLast htp htne
  have hnd1 : ∀ c ∈ joinSp (ws.take (ws.length / 2)), c ≠ '.' := fun c hc =>
    plainish_ne (mem_joinSp htp c hc) (by decide) (by decide)
  have hnd2 : ∀ c ∈ joinSp (ws.drop (ws.length / 2)), c ≠ '.' := fun c hc =>
    plainish_ne (mem_joinSp hdp c hc) (by decide) (by decide)
  have hS2head_not_ws : ∀ c, (joinSp (ws.drop (ws.length / 2))).head? = some c →
      isWS c = false := by
    intro c hc
    obtain ⟨c0, r0, hc1, hc2⟩ := hS2h
    rw [hc1] at hc
    simp at hc
    rw [← hc]
    exact notWS_of_lower hc2
  have hsplit2 : splitDotWS (joinSp (ws.take (ws.length / 2)) ++
      ('.' :: ' ' :: joinSp (ws.drop (ws.length / 2)))) =
      [joinSp (ws.take (ws.length / 2)), joinSp (ws.drop (ws.length / 2))] :=
    splitDotWS_two hnd1 hnd2 hS2head_not_ws
  have hchars : ∀ c ∈ joinSp ws, c ≠ '<' ∧ isNL c = false := fun c hc =>
    ⟨joinSp_ne_lt hpw c hc, notNL_of_plainish (mem_joinSp hpw c hc)⟩
  have hnodot : ∀ c ∈ joinSp ws, c ≠ '.' := fun c hc =>
    plainish_ne (mem_joinSp hpw c hc) (by decide) (by decide)
  have hbodychars : ∀ c ∈ joinSp (ws.take (ws.length / 2)) ++
      ('.' :: ' ' :: joinSp (ws.drop (ws.length / 2))), c ≠ '<' ∧ isNL c = false := by
    intro c hc
    rcases List.mem_append.mp hc with hc | hc
    · exact ⟨plainish_ne (mem_joinSp htp c hc) (by decide) (by decide),
        notNL_of_plainish (mem_joinSp htp c hc)⟩
    · rcases List.mem_cons.mp hc with hc | hc
      · rw [hc]; exact ⟨by decide, by decide⟩
      · rcases List.mem_cons.mp hc with hc | hc
        · rw [hc]; exact ⟨by decide, by decide⟩
        · exact ⟨plainish_ne (mem_joinSp hdp c hc) (by decide) (by decide),
            notNL_of_plainish (mem_joinSp hdp c hc)⟩
  have htrim : trimJS (joinSp (ws.take (ws.length / 2)) ++
      ('.' :: ' ' :: joinSp (ws.drop (ws.length / 2)))) =
      joinSp (ws.take (ws.length / 2)) ++ ('.' :: ' ' :: joinSp (ws.drop (ws.length / 2))) := by
    apply trimJS_eq_self
    · intro c hc
      obtain ⟨c0, r0, hc1, hc2⟩ := hS1
      rw [List.head?_append_of_ne_nil _ (by rw [hc1]; simp)] at hc
      rw [hc1] at hc
      simp at hc
      rw [← hc]
      exact notWS_of_lower hc2
    · intro c hc
      obtain ⟨c0, hc1, hc2⟩ := hS2l
      rw [List.getLast?_append_of_ne_nil _ (by simp)] at hc
      rw [List.getLast?_cons_cons] at hc
      cases hjd : joinSp (ws.drop (ws.length / 2)) with
      | nil =>
        rw [hjd] at hc1
        simp at hc1
      | cons a b =>
        rw [hjd] at hc
        rw [List.getLast?_cons_cons] at hc
        rw [hjd] at hc1
        rw [hc1] at hc
        simp at hc
        rw [← hc]
        exact notWS_of_lower hc2
  have hne : ¬(⟨renderPara ws⟩ : String) = "" := by
    intro he
    have h0 : renderPara ws = [] := congrArg String.data he
    simp [renderPara, openP] at h0
  have hs1 : replaceParasNoNL step1Cb (renderPara ws) =
      openP ++ (joinSp (ws.take (ws.length / 2)) ++
        '.' :: ' ' :: joinSp (ws.drop (ws.length / 2))) ++ closeP := by
    rw [renderPara, replaceParasNoNL_para step1Cb hchars]
    rw [step1Cb]
    have hsplit : splitDotWS (joinSp ws) = [joinSp ws] := sdwAux_false_no_dot hnodot
    rw [hsplit]
    simp only [List.map_cons, List.map_nil]
    rw [step1Sentence]
    rw [naiveWords_joinSp hpw]
    rw [if_pos (by omega)]
    have hi : ∀ z : List Char, interc ['.', ' '] [z] = z := by intro z; simp [interc]
    rw [hi, htrim]
  have hs2 : replaceParasNoNL step2Cb (openP ++ (joinSp (ws.take (ws.length / 2)) ++
      '.' :: ' ' :: joinSp (ws.drop (ws.length / 2))) ++ closeP) =
      openP ++ (joinSp (ws.take (ws.length / 2)) ++
        '.' :: ' ' :: joinSp (ws.drop (ws.length / 2))) ++ closeP := by
    rw [replaceParasNoNL_para step2Cb hbodychars]
    rw [step2Cb]
    simp only [hsplit2]
    rw [if_neg (by
      have := List.length_filter_le (fun x => !(trimJS x).isEmpty)
        [joinSp (ws.take (ws.length / 2)), joinSp (ws.drop (ws.length / 2))]
      simp at this
      omega)]
  have hout := openP ++ (joinSp (ws.take (ws.length / 2)) ++
      '.' :: ' ' :: joinSp (ws.drop (ws.length / 2))) ++ closeP
  have hWS : noDoubleWS (openP ++ (joinSp (ws.take (ws.length / 2)) ++
      '.' :: ' ' :: joinSp (ws.drop (ws.length / 2))) ++ closeP) = true := by
    rw [noDoubleWS_eq_adjOK]
    apply adjOK_wrapP
    · apply adjOK_split_body _ _ _ htp hdp
      · intro c d hc
        rw [notWS_of_lower hc]
        simp
      · intro d hd
        rw [notWS_of_lower hd]
        simp
      · rw [(by decide : isWS '.' = false)]
        simp
    · decide
    · decide
    · intro d
      rw [(by decide : isWS '>' = false)]
      simp
    · intro c
      rw [(by decide : isWS '<' = false)]
      simp
  have hDD : noDoubleDot (openP ++ (joinSp (ws.take (ws.length / 2)) ++
      '.' :: ' ' :: joinSp (ws.drop (ws.length / 2))) ++ closeP) = true := by
    rw [noDoubleDot_eq_adjOK]
    apply adjOK_wrapP
    · apply adjOK_split_body _ _ _ htp hdp
      · intro c d hc
        have : c ≠ '.' := plainish_ne (Or.inl hc) (by decide) (by decide)
        simp [this]
      · intro d hd
        simp
      · simp
    · decide
    · decide
    · intro d
      simp
    · intro c
      simp
  have hDU : noDotUpper (openP ++ (joinSp (ws.take (ws.length / 2)) ++
      '.' :: ' ' :: joinSp (ws.drop (ws.length / 2))) ++ closeP) = true := by
    rw [noDotUpper_eq_adjOK]
    apply adjOK_wrapP
    · apply adjOK_split_body _ _ _ htp hdp
      · intro c d hc
        have : c ≠ '.' := plainish_ne (Or.inl hc) (by decide) (by decide)
        simp [this]
      · intro d hd
        simp
      · rw [(by decide : isUpper ' ' = false)]
        simp
    · decide
    · decide
    · intro d
      simp
    · intro c
      simp
      intro _
      decide
  have hDS : noDotSpDot (openP ++ (joinSp (ws.take (ws.length / 2)) ++
      '.' :: ' ' :: joinSp (ws.drop (ws.length / 2))) ++ closeP) = true := by
    have hshape : openP ++ (joinSp (ws.take (ws.length / 2)) ++
        '.' :: ' ' :: joinSp (ws.drop (ws.length / 2))) ++ closeP =
        (openP ++ joinSp (ws.take (ws.length / 2))) ++
          ('.' :: (' ' :: (joinSp (ws.drop (ws.length / 2)) ++ closeP))) := by
      simp
    rw [hshape]
    apply noDotSpDot_of_nodot_prefix
    · intro c hc
      rcases List.mem_append.mp hc with hc | hc
      · exact (by decide : ∀ c ∈ openP, c ≠ '.') c hc
      · exact hnd1 c hc
    · rw [noDotSpDot]
      have hcond : ((' ' :: (joinSp (ws.drop (ws.length / 2)) ++ closeP)).dropWhile
          isWS).head? ≠ some '.' := by
        obtain ⟨c0, r0, hc1, hc2⟩ := hS2h
        rw [hc1]
        rw [List.dropWhile_cons, if_pos (by decide)]
        show (((c0 :: (r0 ++ closeP)) : List Char).dropWhile isWS).head? ≠ some '.'
        rw [List.dropWhile_cons, if_neg (by rw [notWS_of_lower hc2]; simp)]
        simp
        intro he
        rw [he] at hc2
        revert hc2
        decide
      have hrest : noDotSpDot (' ' :: (joinSp (ws.drop (ws.length / 2)) ++ closeP)) = true := by
        show noDotSpDot ((' ' :: joinSp (ws.drop (ws.length / 2))) ++ closeP) = true
        apply noDotSpDot_of_nodot_prefix
        · intro c hc
          rcases List.mem_cons.mp hc with hc | hc
          · rw [hc]; decide
          · exact hnd2 c hc
        · decide
      rw [hrest]
      simp [hcond]
  have hfix3 := foldlCI_noop hconn
  have hfix4 := foldlWB_noop hvocab
  have hc1 : collapseWS (openP ++ (joinSp (ws.take (ws.length / 2)) ++
      '.' :: ' ' :: joinSp (ws.drop (ws.length / 2))) ++ closeP) = _ := cwAux_of_noDoubleWS hWS
  have hc2 : collapseDots (openP ++ (joinSp (ws.take (ws.length / 2)) ++
      '.' :: ' ' :: joinSp (ws.drop (ws.length / 2))) ++ closeP) = _ := cdAux_of_noDoubleDot hDD
  have hc3 : dotSpDot (openP ++ (joinSp (ws.take (ws.length / 2)) ++
      '.' :: ' ' :: joinSp (ws.drop (ws.length / 2))) ++ closeP) = _ := dsdAux_of_noDotSpDot hDS
  have hc4 : dotUpper (openP ++ (joinSp (ws.take (ws.length / 2)) ++
      '.' :: ' ' :: joinSp (ws.drop (ws.length / 2))) ++ closeP) = _ := dotUpper_of_noDotUpper hDU
  refine ⟨?_, ?_, ?_, ?_⟩
  · rw [improveReadability, if_neg hne]
    simp only []
    have hd : (⟨renderPara ws⟩ : String).data = renderPara ws := rfl
    rw [hs1, hs2, hfix3, hfix4, hc1, hc2, hc3, hc4]
  · rw [hsplit2]
    simp only [List.map_cons, List.map_nil]
    rw [naiveWords_joinSp htp, naiveWords_joinSp hdp]
  · rw [List.length_take]
    omega
  · rw [List.length_drop]

theorem claim_C9_sentence_split_witness :
    plainWords (List.replicate 21 (['a', 'b'] : List Char)) = true ∧
    20 < (List.replicate 21 (['a', 'b'] : List Char)).length ∧
    (∀ pr ∈ connectorRules, occursCI pr.1.data (openP ++ (joinSp ((List.replicate 21 (['a', 'b'] : List Char)).take ((List.replicate 21 (['a', 'b'] : List Char)).length / 2)) ++ '.' :: ' ' :: joinSp ((List.replicate 21 (['a', 'b'] : List Char)).drop ((List.replicate 21 (['a', 'b'] : List Char)).length / 2))) ++ closeP) = false) ∧
    (∀ pr ∈ vocabRules, occursWB pr.1.data (openP ++ (joinSp ((List.replicate 21 (['a', 'b'] : List Char)).take ((List.replicate 21 (['a', 'b'] : List Char)).length / 2)) ++ '.' :: ' ' :: joinSp ((List.replicate 21 (['a', 'b'] : List Char)).drop ((List.replicate 21 (['a', 'b'] : List Char)).length / 2))) ++ closeP) = false) ∧
    (improveReadability ⟨renderPara (List.replicate 21 (['a', 'b'] : List Char))⟩ = ⟨openP ++ (joinSp ((List.replicate 21 (['a', 'b'] : List Char)).take ((List.replicate 21 (['a', 'b'] : List Char)).length / 2)) ++ '.' :: ' ' :: joinSp ((List.replicate 21 (['a', 'b'] : List Char)).drop ((List.replicate 21 (['a', 'b'] : List Char)).length / 2))) ++ closeP⟩ ∧
      (splitDotWS (joinSp ((List.replicate 21 (['a', 'b'] : List Char)).take ((List.replicate 21 (['a', 'b'] : List Char)).length / 2)) ++ '.' :: ' ' :: joinSp ((List.replicate 21 (['a', 'b'] : List Char)).drop ((List.replicate 21 (['a', 'b'] : List Char)).length / 2)))).map naiveWords = [(List.replicate 21 (['a', 'b'] : List Char)).take ((List.replicate 21 (['a', 'b'] : List Char)).length / 2),
        (List.replicate 21 (['a', 'b'] : List Char)).drop ((List.replicate 21 (['a', 'b'] : List Char)).length / 2)] ∧
      ((List.replicate 21 (['a', 'b'] : List Char)).take ((List.replicate 21 (['a', 'b'] : List Char)).length / 2)).length = (List.replicate 21 (['a', 'b'] : List Char)).length / 2 ∧
      ((List.replicate 21 (['a', 'b'] : List Char)).drop ((List.replicate 21 (['a', 'b'] : List Char)).length / 2)).length = (List.replicate 21 (['a', 'b'] : List Char)).length - (List.replicate 21 (['a', 'b'] : List Char)).length / 2) :=
  ⟨by decide, by decide, by decide, by decide,
    claim_C9_sentence_split (by decide) (by decide) (by decide) (by decide)⟩

theorem claim_C10_markup_witness :
    plainWords ["hola".data, "mundo".data, "gran".data, "texto".data] = true ∧
    plainUrl "https://c.com/blog".data = true ∧
    extractTags (splice ["hola".data, "mundo".data, "gran".data, "texto".data] 1 3
        "https://c.com/blog".data) =
      [openP, anchorOpenTag "https://c.com/blog".data, "</a>".data, closeP] :=
  ⟨by decide, by decide, claim_C10_markup (by decide) (by decide)⟩

end Geo
